import Mathlib

/-!
Verification development for the investments valuation engine
(investments/selectors.py, investments/services.py, investments/models.py).

Modelling conventions of the shallow embedding:
  - Python `Decimal` values are modelled as exact rationals; every
    `quantize` call in the source becomes an explicit rounding function
    (`roundHalfUp` for `rounding=ROUND_HALF_UP`, `roundHalfEven` for a
    `quantize` with no rounding argument, since the default context of the
    `decimal` module rounds half-to-even).
  - calendar dates are modelled as integers (one unit = one day), which is
    all the engine uses of them: ordering, equality and +1 stepping.
  - the Django ORM tables are lists of rows carried in an `Env` record;
    ORM queries become list filters with the same semantics.
  - Python exceptions become `Except VErr`; the payload of each error
    constructor records the data the source interpolates into the message.
-/

/-- Rounding half-up (ties away from zero, as Python ROUND_HALF_UP) to
`n` decimal places. -/
def roundHalfUp (x : ℚ) (n : ℕ) : ℚ :=
  let s : ℚ := (10 : ℚ) ^ n
  if 0 ≤ x then ((⌊x * s + 1/2⌋ : ℤ) : ℚ) / s
  else -(((⌊(-x) * s + 1/2⌋ : ℤ) : ℚ) / s)

/-- Rounding half-to-even (banker's rounding, the default rounding of the
Python decimal context) to `n` decimal places. -/
def roundHalfEven (x : ℚ) (n : ℕ) : ℚ :=
  let s : ℚ := (10 : ℚ) ^ n
  let y := x * s
  let f : ℤ := ⌊y⌋
  let r : ℚ := y - (f : ℚ)
  let k : ℤ :=
    if r < 1/2 then f
    else if 1/2 < r then f + 1
    else if f % 2 = 0 then f else f + 1
  ((k : ℤ) : ℚ) / s

/-- Association-list lookup with a default, modelling Python
`dict.get(key, default)` (and `dict[key]` at call sites where the key is
known to be present). -/
def lookupD {α β : Type} [DecidableEq α] (l : List (α × β)) (k : α) (d : β) : β :=
  match l.find? (fun e => decide (e.1 = k)) with
  | some e => e.2
  | none => d

/-- Row of the Asset table (models.Asset): unique integer primary key and
a name string. -/
structure AssetT where
  id : ℕ
  name : String
deriving DecidableEq

/-- Row of the InitialWeight table joined with its asset
(models.InitialWeight via select_related). -/
structure IWRow where
  asset : AssetT
  weight : ℚ
deriving DecidableEq

/-- Row of the Portfolio table (models.Portfolio) together with its
related initial_weights rows. -/
structure PortfolioT where
  id : ℕ
  initial_value : ℚ
  initial_date : ℤ
  iweights : List IWRow
deriving DecidableEq

/-- Row of the Price table (models.Price). -/
structure PriceRow where
  asset : ℕ
  date : ℤ
  price : ℚ
deriving DecidableEq

/-- Row of the HoldingAdjustment table (models.HoldingAdjustment). -/
structure AdjRow where
  portfolio : ℕ
  asset : ℕ
  effective_date : ℤ
  delta_units : ℚ
deriving DecidableEq

/-- The adjustment ledger: the HoldingAdjustment table contents, in
insertion order. -/
abbrev Ledger := List AdjRow

/-- Read-only database state: the Price table. The HoldingAdjustment
table is passed separately where it is read or written. -/
structure Env where
  prices : List PriceRow
deriving DecidableEq

/-- Errors raised by the engine ( Python exceptions); each constructor
carries the data the source puts in the exception message. -/
inductive VErr where
  /-- ValueError raised by selectors when a portfolio has no
  InitialWeight rows. -/
  | noInitialWeights : VErr
  /-- ValueError raised by selectors naming the asset that has no price
  at the initial date t0. -/
  | missingInitialPrice (t0 : ℤ) (assetName : String) : VErr
  /-- Price.DoesNotExist from an exact-date lookup (services._price). -/
  | priceDoesNotExist (asset : ℕ) (d : ℤ) : VErr
  /-- Price.DoesNotExist from services.price_or_previous when the asset
  has no price at or before the date. -/
  | noPriceAtOrBefore (asset : ℕ) (d : ℤ) : VErr
  /-- An injected mid-transaction fault (used to model a failure inside
  the transaction.atomic block). -/
  | midTradeFault : VErr
deriving DecidableEq

/-- Exact-date price lookup: services._price / the bulk price maps in
selectors. Returns the price of the unique Price row with the given asset
and date, if any (the table is unique per (asset, date)). -/
def priceExact (env : Env) (a : ℕ) (d : ℤ) : Option ℚ :=
  (env.prices.find? (fun r => decide (r.asset = a) && decide (r.date = d))).map
    (fun r => r.price)

/-- Most recent price at or before d: services.price_or_previous.
Mirrors filter(date__lte=d).order_by(-date).first(): the candidate row
with the greatest date wins. -/
def price_or_previous (env : Env) (a : ℕ) (d : ℤ) : Except VErr (ℚ × ℤ) :=
  let cands := env.prices.filter (fun r => decide (r.asset = a) && decide (r.date ≤ d))
  match cands.foldl
      (fun best r =>
        match best with
        | none => some (r.price, r.date)
        | some (bp, bd) => if bd < r.date then some (r.price, r.date) else some (bp, bd))
      none with
  | none => .error (.noPriceAtOrBefore a d)
  | some pd => .ok pd

/-- Price resolution for one trade leg, the try/except block in
services.apply_trade: exact-date price if present; otherwise fall back to
the most recent earlier price when fallback is enabled, else re-raise the
exact-date miss. -/
def resolvePrice (env : Env) (a : ℕ) (d : ℤ) (fallback : Bool) : Except VErr (ℚ × ℤ) :=
  match priceExact env a d with
  | some p => .ok (p, d)
  | none =>
    if fallback then price_or_previous env a d
    else .error (.priceDoesNotExist a d)

/-- Day-by-day date range, inclusive of both ends (selectors.daterange).
The fuel argument counts the number of days the while loop yields. -/
def daterangeAux : ℕ → ℤ → List ℤ
  | 0, _ => []
  | n + 1, d => d :: daterangeAux n (d + 1)

/-- Date range [start, end] inclusive, empty when start > end
(selectors.daterange). -/
def daterange (start e : ℤ) : List ℤ :=
  daterangeAux (e + 1 - start).toNat start

theorem daterangeAux_length (n : ℕ) (d : ℤ) : (daterangeAux n d).length = n := by
  induction n generalizing d with
  | zero => rfl
  | succ n ih => simp [daterangeAux, ih]

theorem daterangeAux_get (n : ℕ) (d : ℤ) (i : ℕ) (hi : i < n) :
    (daterangeAux n d).get ⟨i, by rw [daterangeAux_length]; exact hi⟩ = d + i := by
  induction n generalizing d i with
  | zero => omega
  | succ n ih =>
    cases i with
    | zero => simp [daterangeAux]
    | succ j =>
      have hj : j < n := by omega
      have := ih (d + 1) j hj
      simp only [daterangeAux, List.get_cons_succ]
      rw [this]
      push_cast
      ring

theorem daterangeAux_mem (n : ℕ) (d x : ℤ) :
    x ∈ daterangeAux n d ↔ d ≤ x ∧ x < d + n := by
  induction n generalizing d with
  | zero => simp [daterangeAux]
  | succ n ih =>
    simp [daterangeAux, ih (d + 1)]
    omega

theorem daterangeAux_pairwise_le (n : ℕ) (d : ℤ) :
    (daterangeAux n d).Pairwise (· ≤ ·) := by
  induction n generalizing d with
  | zero => exact List.Pairwise.nil
  | succ n ih =>
    refine List.Pairwise.cons ?_ (ih (d + 1))
    intro x hx
    have := (daterangeAux_mem n (d + 1) x).mp hx
    omega

theorem daterangeAux_pairwise_lt (n : ℕ) (d : ℤ) :
    (daterangeAux n d).Pairwise (· < ·) := by
  induction n generalizing d with
  | zero => exact List.Pairwise.nil
  | succ n ih =>
    refine List.Pairwise.cons ?_ (ih (d + 1))
    intro x hx
    have := (daterangeAux_mem n (d + 1) x).mp hx
    omega

theorem daterange_mem (s e x : ℤ) : x ∈ daterange s e ↔ s ≤ x ∧ x ≤ e := by
  unfold daterange
  rw [daterangeAux_mem]
  constructor
  · intro h
    refine ⟨h.1, ?_⟩
    have h2 := h.2
    by_cases hse : s ≤ e + 1
    · have : ((e + 1 - s).toNat : ℤ) = e + 1 - s := Int.toNat_of_nonneg (by omega)
      omega
    · have : (e + 1 - s).toNat = 0 := by omega
      rw [this] at h2
      omega
  · intro h
    have : ((e + 1 - s).toNat : ℤ) = e + 1 - s := Int.toNat_of_nonneg (by omega)
    omega

/-- Insert an integer into an ascending-sorted list, keeping it sorted. -/
def insertAsc (x : ℤ) : List ℤ → List ℤ
  | [] => [x]
  | y :: ys => if x ≤ y then x :: y :: ys else y :: insertAsc x ys

/-- Ascending insertion sort, modelling the order_by clauses of the ORM
queries. -/
def sortAsc (l : List ℤ) : List ℤ := l.foldr insertAsc []

/-- Adjustment rows of the given portfolio dated at or before e
(the filter in selectors.adjustments_cumsum: portfolio=portfolio,
effective_date__lte=end). -/
def adjRowsFor (ledger : Ledger) (pid : ℕ) (e : ℤ) : List AdjRow :=
  ledger.filter (fun r => decide (r.portfolio = pid) && decide (r.effective_date ≤ e))

/-- Per-asset adjustment series: for one asset, the list of
(effective_date, summed delta_units at that date) pairs, dates ascending.
Models the values/annotate(Sum)/order_by grouping query feeding
per_asset in selectors.adjustments_cumsum. -/
def adjSeries (rows : List AdjRow) (a : ℕ) : List (ℤ × ℚ) :=
  let rowsA := rows.filter (fun r => decide (r.asset = a))
  (sortAsc ((rowsA.map (fun r => r.effective_date)).dedup)).map
    (fun dt =>
      (dt, ((rowsA.filter (fun r => decide (r.effective_date = dt))).map
              (fun r => r.delta_units)).sum))

/-- The per-asset forward sweep in selectors.adjustments_cumsum: walk the
days in order, consuming the leading series entries with date at or before
the current day into a running cumulative sum, and record the running sum
for each day. -/
def sweepDays : List (ℤ × ℚ) → ℚ → List ℤ → List (ℤ × ℚ)
  | _, _, [] => []
  | series, cum, d :: ds =>
    let taken := series.takeWhile (fun e => decide (e.1 ≤ d))
    let rest := series.dropWhile (fun e => decide (e.1 ≤ d))
    let cum2 := cum + (taken.map (fun e => e.2)).sum
    (d, cum2) :: sweepDays rest cum2 ds

/-- selectors.adjustments_cumsum: for each (asset, day of the range),
the cumulative sum of that asset's delta_units up to and including that
day; pairs are absent for assets with no adjustment rows. -/
def adjustments_cumsum (ledger : Ledger) (p : PortfolioT) (start e : ℤ) :
    List ((ℕ × ℤ) × ℚ) :=
  let rows := adjRowsFor ledger p.id e
  let assets := (rows.map (fun r => r.asset)).dedup
  assets.flatMap (fun a =>
    (sweepDays (adjSeries rows a) 0 (daterange start e)).map
      (fun dc => ((a, dc.1), dc.2)))

/-- Body of the loop in selectors.compute_initial_units_once: walk the
InitialWeight rows in order; a missing price at t0 raises naming the
asset, otherwise units are weight * V0 / price rounded half-up to 8
decimals. Returns the base_units and asset_name association lists. -/
def initUnitsList (env : Env) (t0 : ℤ) (V0 : ℚ) :
    List IWRow → Except VErr (List (ℕ × ℚ) × List (ℕ × String))
  | [] => .ok ([], [])
  | iw :: rest =>
    match priceExact env iw.asset.id t0 with
    | none => .error (.missingInitialPrice t0 iw.asset.name)
    | some p0 =>
      match initUnitsList env t0 V0 rest with
      | .error e => .error e
      | .ok (bs, ns) =>
        .ok ((iw.asset.id, roundHalfUp (iw.weight * V0 / p0) 8) :: bs,
             (iw.asset.id, iw.asset.name) :: ns)

/-- selectors.compute_initial_units_once: errors when the portfolio has
no InitialWeight rows, otherwise derives base units per asset. -/
def compute_initial_units_once (env : Env) (p : PortfolioT) :
    Except VErr (List (ℕ × ℚ) × List (ℕ × String)) :=
  if p.iweights.isEmpty then .error .noInitialWeights
  else initUnitsList env p.initial_date p.initial_value p.iweights

/-- Per-asset mark-to-market values for one day of the range (the inner
loop of selectors.portfolio_time_series): assets lacking a price that day
are skipped; otherwise (base units + cumulative adjustment) * price.
The bulk price map restricted to [start, end] agrees with priceExact on
every day of the range, so the exact-date lookup is used directly. -/
def dayXi (env : Env) (assetIds : List ℕ) (baseUnits : List (ℕ × ℚ))
    (adjCum : List ((ℕ × ℤ) × ℚ)) (d : ℤ) : List (ℕ × ℚ) :=
  assetIds.filterMap (fun aid =>
    match priceExact env aid d with
    | none => none
    | some price =>
      some (aid, (lookupD baseUnits aid 0 + lookupD adjCum (aid, d) 0) * price))

/-- One day of selectors.portfolio_time_series: the day total is the sum
of the per-asset values quantized to 2 decimals (default context
rounding, half-even), and when the total is positive and some asset had a
price, each weight is value / total quantized to 8 decimals (half-even).
-/
def timeSeriesDay (env : Env) (assetIds : List ℕ) (baseUnits : List (ℕ × ℚ))
    (assetName : List (ℕ × String)) (adjCum : List ((ℕ × ℤ) × ℚ)) (d : ℤ) :
    ℚ × List (String × ℚ) :=
  let xi := dayXi env assetIds baseUnits adjCum d
  let total_v := roundHalfEven ((xi.map (fun e => e.2)).sum) 2
  let wmap :=
    if 0 < total_v ∧ xi ≠ [] then
      xi.map (fun e => (lookupD assetName e.1 "", roundHalfEven (e.2 / total_v) 8))
    else []
  (total_v, wmap)

/-- Result record of selectors.portfolio_time_series. Each weights entry
is the day's asset_name-to-weight mapping in iteration order. -/
structure TSResult where
  dates : List ℤ
  Vt : List ℚ
  weights : List (List (String × ℚ))
deriving DecidableEq

/-- selectors.portfolio_time_series: daily dates, values and weight
mappings over [start, e]; adjustments are included only when use_trades
is true. -/
def portfolio_time_series (env : Env) (ledger : Ledger) (p : PortfolioT)
    (start e : ℤ) (use_trades : Bool) : Except VErr TSResult :=
  match compute_initial_units_once env p with
  | .error err => .error err
  | .ok (base_units, asset_name) =>
    let asset_ids := base_units.map (fun b => b.1)
    let adj_cum := if use_trades then adjustments_cumsum ledger p start e else []
    let days := daterange start e
    let rows := days.map (fun d =>
      timeSeriesDay env asset_ids base_units asset_name adj_cum d)
    .ok { dates := days
          Vt := rows.map (fun r => r.1)
          weights := rows.map (fun r => r.2) }

/-- Loop body of services.compute_initial_units_for_portfolio: same unit
formula as the selectors variant, but a missing t0 price surfaces as the
Price.DoesNotExist of services.price, and there is no empty-weights
check. -/
def initUnitsServiceList (env : Env) (t0 : ℤ) (V0 : ℚ) :
    List IWRow → Except VErr (List (ℕ × ℚ))
  | [] => .ok []
  | iw :: rest =>
    match priceExact env iw.asset.id t0 with
    | none => .error (.priceDoesNotExist iw.asset.id t0)
    | some p =>
      match initUnitsServiceList env t0 V0 rest with
      | .error e => .error e
      | .ok out => .ok ((iw.asset.id, roundHalfUp (iw.weight * V0 / p) 8) :: out)

/-- services.compute_initial_units_for_portfolio. -/
def compute_initial_units_for_portfolio (env : Env) (p : PortfolioT) :
    Except VErr (List (ℕ × ℚ)) :=
  initUnitsServiceList env p.initial_date p.initial_value p.iweights

/-- services.get_units_on_date: initial units plus the sum of the
adjustment deltas at or before d, rounded half-up to 8 decimals. -/
def get_units_on_date (env : Env) (ledger : Ledger) (p : PortfolioT)
    (asset : AssetT) (d : ℤ) : Except VErr ℚ :=
  match compute_initial_units_for_portfolio env p with
  | .error e => .error e
  | .ok base_by_id =>
    let base := lookupD base_by_id asset.id 0
    let delta := ((ledger.filter (fun r =>
        decide (r.portfolio = p.id) && decide (r.asset = asset.id) &&
        decide (r.effective_date ≤ d))).map (fun r => r.delta_units)).sum
    .ok (roundHalfUp (base + delta) 8)

/-- Accumulation loop of services.portfolio_value_on_date over the
InitialWeight rows: units on d times the exact-date price, summed; a
missing exact-date price raises. -/
def valueSumOnDate (env : Env) (ledger : Ledger) (p : PortfolioT) (d : ℤ) :
    List IWRow → Except VErr ℚ
  | [] => .ok 0
  | iw :: rest =>
    match get_units_on_date env ledger p iw.asset d with
    | .error e => .error e
    | .ok c =>
      match priceExact env iw.asset.id d with
      | none => .error (.priceDoesNotExist iw.asset.id d)
      | some pr =>
        match valueSumOnDate env ledger p d rest with
        | .error e => .error e
        | .ok t => .ok (c * pr + t)

/-- services.portfolio_value_on_date: the summed value quantized half-up
to 2 decimals. -/
def portfolio_value_on_date (env : Env) (ledger : Ledger) (p : PortfolioT)
    (d : ℤ) : Except VErr ℚ :=
  match valueSumOnDate env ledger p d p.iweights with
  | .error e => .error e
  | .ok t => .ok (roundHalfUp t 2)

/-- Points inside the transaction.atomic block of services.apply_trade at
which an injected fault can abort the transaction. -/
inductive FaultPoint where
  | beforeSell : FaultPoint
  | betweenLegs : FaultPoint
  | afterBuy : FaultPoint
deriving DecidableEq

/-- Return value of services.apply_trade. -/
structure TradeResult where
  units_sell : ℚ
  units_buy : ℚ
deriving DecidableEq

/-- The guarded create of one trade leg in services.apply_trade: insert
the row unless a row equal in all four fields already exists (the
existence check before HoldingAdjustment.objects.create). -/
def insertIfNew (L : Ledger) (row : AdjRow) : Ledger :=
  if L.any (fun r => decide (r = row)) then L else L ++ [row]

/-- Body of services.apply_trade running inside the transaction: resolve
both leg prices (with optional fallback), compute traded units, then
insert each leg unless an identical row already exists. The fault
argument injects a failure at a chosen point of the write phase; the
fault-free instantiation is the normal control flow. -/
def applyTradeCore (env : Env) (ledger : Ledger) (p : PortfolioT) (d : ℤ)
    (asset_sell : AssetT) (value_sell : ℚ) (asset_buy : AssetT) (value_buy : ℚ)
    (fallback_to_previous_price : Bool) (fault : FaultPoint → Bool) :
    Except VErr (Ledger × TradeResult) :=
  match resolvePrice env asset_sell.id d fallback_to_previous_price with
  | .error e => .error e
  | .ok (ps, _) =>
  match resolvePrice env asset_buy.id d fallback_to_previous_price with
  | .error e => .error e
  | .ok (pb, _) =>
    let units_sell := roundHalfUp (value_sell / ps) 8
    let units_buy := roundHalfUp (value_buy / pb) 8
    let sellRow : AdjRow := ⟨p.id, asset_sell.id, d, -units_sell⟩
    let buyRow : AdjRow := ⟨p.id, asset_buy.id, d, units_buy⟩
    if fault .beforeSell then .error .midTradeFault else
    let L1 := insertIfNew ledger sellRow
    if fault .betweenLegs then .error .midTradeFault else
    let L2 := insertIfNew L1 buyRow
    if fault .afterBuy then .error .midTradeFault else
    .ok (L2, { units_sell := units_sell, units_buy := units_buy })

/-- services.apply_trade without injected faults: returns the updated
ledger together with the traded units. -/
def apply_trade (env : Env) (ledger : Ledger) (p : PortfolioT) (d : ℤ)
    (asset_sell : AssetT) (value_sell : ℚ) (asset_buy : AssetT) (value_buy : ℚ)
    (fallback_to_previous_price : Bool) : Except VErr (Ledger × TradeResult) :=
  applyTradeCore env ledger p d asset_sell value_sell asset_buy value_buy
    fallback_to_previous_price (fun _ => false)

/-- services.apply_trade under the transaction.atomic wrapper with an
injected fault: the writes of the body become visible only if the body
finishes without raising; on any exception the database rolls back, so
the observable ledger is the one from before the call. -/
def apply_trade_atomic (env : Env) (ledger : Ledger) (p : PortfolioT) (d : ℤ)
    (asset_sell : AssetT) (value_sell : ℚ) (asset_buy : AssetT) (value_buy : ℚ)
    (fallback_to_previous_price : Bool) (fault : FaultPoint → Bool) :
    Ledger × Except VErr TradeResult :=
  match applyTradeCore env ledger p d asset_sell value_sell asset_buy value_buy
      fallback_to_previous_price fault with
  | .ok (L2, r) => (L2, .ok r)
  | .error e => (ledger, .error e)

/-! Helper lemmas about the embedding. -/

theorem daterange_length (s e : ℤ) (hse : s ≤ e) :
    (daterange s e).length = (e - s).toNat + 1 := by
  unfold daterange
  rw [daterangeAux_length]
  omega

theorem daterange_get (s e : ℤ) (i : ℕ) (hi : i < (daterange s e).length) :
    (daterange s e).get ⟨i, hi⟩ = s + i := by
  unfold daterange at hi ⊢
  exact daterangeAux_get _ s i (by rw [daterangeAux_length] at hi; exact hi)

theorem portfolio_time_series_ok_inv (env : Env) (ledger : Ledger)
    (p : PortfolioT) (s e : ℤ) (ut : Bool) (res : TSResult)
    (h : portfolio_time_series env ledger p s e ut = .ok res) :
    ∃ bu an, compute_initial_units_once env p = .ok (bu, an) := by
  unfold portfolio_time_series at h
  cases hc : compute_initial_units_once env p with
  | error err => rw [hc] at h; exact absurd h (by simp)
  | ok bn =>
    obtain ⟨bu, an⟩ := bn
    exact ⟨bu, an, rfl⟩


theorem portfolio_time_series_ok_eq (env : Env) (ledger : Ledger)
    (p : PortfolioT) (s e : ℤ) (ut : Bool) (bu : List (ℕ × ℚ))
    (an : List (ℕ × String))
    (h : compute_initial_units_once env p = .ok (bu, an)) :
    portfolio_time_series env ledger p s e ut =
      .ok { dates := daterange s e
            Vt := (daterange s e).map (fun d =>
              (timeSeriesDay env (bu.map (fun b => b.1)) bu an
                (if ut then adjustments_cumsum ledger p s e else []) d).1)
            weights := (daterange s e).map (fun d =>
              (timeSeriesDay env (bu.map (fun b => b.1)) bu an
                (if ut then adjustments_cumsum ledger p s e else []) d).2) } := by
  unfold portfolio_time_series
  rw [h]
  simp [List.map_map, Function.comp]

/-- C4: for start at most end, the three arrays of portfolio_time_series
have equal length, that length is the number of calendar days in the
inclusive range, and the dates array is strictly ascending with
consecutive entries one day apart, index-aligned with Vt and weights. -/
theorem C4_time_series_shape (env : Env) (ledger : Ledger) (p : PortfolioT)
    (s e : ℤ) (ut : Bool) (res : TSResult)
    (hse : s ≤ e)
    (hok : portfolio_time_series env ledger p s e ut = .ok res) :
    res.dates.length = res.Vt.length ∧
    res.dates.length = res.weights.length ∧
    res.dates.length = (e - s).toNat + 1 ∧
    (∀ i (hi : i < res.dates.length), res.dates.get ⟨i, hi⟩ = s + i) ∧
    res.dates.Chain' (fun a b => b = a + 1) ∧
    res.dates.Pairwise (· < ·) := by
  obtain ⟨bu, an, hc⟩ := portfolio_time_series_ok_inv env ledger p s e ut res hok
  have h2 := (portfolio_time_series_ok_eq env ledger p s e ut bu an hc).symm.trans hok
  simp only [Except.ok.injEq] at h2
  subst h2
  dsimp only
  refine ⟨by simp, by simp, daterange_length s e hse, ?_, ?_, ?_⟩
  · intro i hi
    exact daterange_get s e i hi
  · rw [List.chain'_iff_get]
    intro i hlt
    have hi : i < (daterange s e).length := by omega
    have hi1 : i + 1 < (daterange s e).length := by omega
    rw [daterange_get s e i hi, daterange_get s e (i + 1) hi1]
    push_cast
    ring
  · unfold daterange
    exact daterangeAux_pairwise_lt _ _

instance {ε α : Type} [DecidableEq ε] [DecidableEq α] : DecidableEq (Except ε α) :=
  fun x y =>
  match x, y with
  | .ok a, .ok b =>
    if h : a = b then isTrue (by rw [h])
    else isFalse (by intro hc; cases hc; exact h rfl)
  | .ok _, .error _ => isFalse (by intro hc; cases hc)
  | .error _, .ok _ => isFalse (by intro hc; cases hc)
  | .error e1, .error e2 =>
    if h : e1 = e2 then isTrue (by rw [h])
    else isFalse (by intro hc; cases hc; exact h rfl)

unseal Rat.add Rat.mul Rat.inv Rat.sub Rat.ofScientific in
/-- C4 witness: a concrete three-day range. -/
theorem C4_time_series_shape_witness :
    (0 : ℤ) ≤ 2 ∧
    ((portfolio_time_series ⟨[⟨1, 0, 5⟩]⟩ [] ⟨1, 100, 0, [⟨⟨1, "A"⟩, 1⟩]⟩ 0 2 true
        = .ok { dates := [0, 1, 2],
                Vt := [100, 0, 0],
                weights := [[("A", 1)], [], []] }) ∧
      ([0, 1, 2] : List ℤ).length = ([100, 0, 0] : List ℚ).length) := by
  refine ⟨by decide, by decide, ?_⟩
  have h := C4_time_series_shape ⟨[⟨1, 0, 5⟩]⟩ [] ⟨1, 100, 0, [⟨⟨1, "A"⟩, 1⟩]⟩
    0 2 true { dates := [0, 1, 2], Vt := [100, 0, 0], weights := [[("A", 1)], [], []] }
    (by decide) (by decide)
  exact h.1

/-- C9: with use_trades false the time series coincides with the
use_trades true series over a ledger holding no adjustment rows of the
portfolio. -/
theorem C9_no_trades_equivalence (env : Env) (ledger : Ledger)
    (p : PortfolioT) (s e : ℤ)
    (hno : ∀ r ∈ ledger, r.portfolio ≠ p.id) :
    portfolio_time_series env ledger p s e true =
      portfolio_time_series env ledger p s e false := by
  have hcum : adjustments_cumsum ledger p s e = [] := by
    unfold adjustments_cumsum adjRowsFor
    have hfil : ledger.filter
        (fun r => decide (r.portfolio = p.id) && decide (r.effective_date ≤ e)) = [] := by
      rw [List.filter_eq_nil_iff]
      intro r hr
      simp [hno r hr]
    rw [hfil]
    rfl
  unfold portfolio_time_series
  rw [hcum]
  cases hc : compute_initial_units_once env p <;> rfl

/-- C9 witness: a ledger whose only row belongs to another portfolio. -/
theorem C9_no_trades_equivalence_witness :
    portfolio_time_series ⟨[⟨1, 0, 5⟩]⟩ [⟨2, 1, 0, 7⟩] ⟨1, 100, 0, [⟨⟨1, "A"⟩, 1⟩]⟩ 0 1 true =
      portfolio_time_series ⟨[⟨1, 0, 5⟩]⟩ [⟨2, 1, 0, 7⟩] ⟨1, 100, 0, [⟨⟨1, "A"⟩, 1⟩]⟩ 0 1 false :=
  C9_no_trades_equivalence ⟨[⟨1, 0, 5⟩]⟩ [⟨2, 1, 0, 7⟩] ⟨1, 100, 0, [⟨⟨1, "A"⟩, 1⟩]⟩ 0 1
    (by decide)

/-! Lemmas about the guarded ledger insert. -/

theorem mem_insertIfNew_self (L : Ledger) (a : AdjRow) : a ∈ insertIfNew L a := by
  unfold insertIfNew
  by_cases h : L.any (fun r => decide (r = a)) = true
  · rw [if_pos h]
    rcases List.any_eq_true.mp h with ⟨x, hx, hxa⟩
    rw [decide_eq_true_eq] at hxa
    exact hxa ▸ hx
  · rw [if_neg h]
    exact List.mem_append_right _ (List.mem_singleton_self a)

theorem subset_insertIfNew (L : Ledger) (a : AdjRow) : L ⊆ insertIfNew L a := by
  unfold insertIfNew
  by_cases h : L.any (fun r => decide (r = a)) = true
  · rw [if_pos h]
    exact List.Subset.refl _
  · rw [if_neg h]
    exact List.subset_append_left _ _

theorem insertIfNew_eq_of_mem (L : Ledger) (a : AdjRow) (h : a ∈ L) :
    insertIfNew L a = L := by
  unfold insertIfNew
  rw [if_pos (List.any_eq_true.mpr ⟨a, h, by simp⟩)]

theorem mem_insertIfNew_iff (L : Ledger) (a x : AdjRow) :
    x ∈ insertIfNew L a ↔ x ∈ L ∨ x = a := by
  unfold insertIfNew
  by_cases h : L.any (fun r => decide (r = a)) = true
  · rw [if_pos h]
    rcases List.any_eq_true.mp h with ⟨y, hy, hya⟩
    rw [decide_eq_true_eq] at hya
    constructor
    · exact Or.inl
    · rintro (hx | rfl)
      · exact hx
      · exact hya ▸ hy
  · rw [if_neg h]
    simp [List.mem_append]

/-- Evaluation lemma for apply_trade: with no injected faults the call
reduces to the two price resolutions followed by the two guarded
inserts. -/
theorem apply_trade_eq (env : Env) (L : Ledger) (p : PortfolioT) (d : ℤ)
    (asset_sell : AssetT) (value_sell : ℚ) (asset_buy : AssetT) (value_buy : ℚ)
    (fb : Bool) :
    apply_trade env L p d asset_sell value_sell asset_buy value_buy fb =
      match resolvePrice env asset_sell.id d fb with
      | .error e => .error e
      | .ok (ps, _) =>
        match resolvePrice env asset_buy.id d fb with
        | .error e => .error e
        | .ok (pb, _) =>
          .ok (insertIfNew
                 (insertIfNew L ⟨p.id, asset_sell.id, d, -roundHalfUp (value_sell / ps) 8⟩)
                 ⟨p.id, asset_buy.id, d, roundHalfUp (value_buy / pb) 8⟩,
               { units_sell := roundHalfUp (value_sell / ps) 8
                 units_buy := roundHalfUp (value_buy / pb) 8 }) := by
  unfold apply_trade applyTradeCore
  cases resolvePrice env asset_sell.id d fb with
  | error e => rfl
  | ok pp =>
    obtain ⟨ps, psd⟩ := pp
    cases resolvePrice env asset_buy.id d fb with
    | error e => rfl
    | ok qq =>
      obtain ⟨pb, pbd⟩ := qq
      rfl

/-- C3: a second apply_trade call with identical arguments leaves the
ledger produced by the first call unchanged and returns the same units:
each leg is skipped because an identical row already exists. -/
theorem C3_apply_trade_idempotent (env : Env) (L : Ledger) (p : PortfolioT)
    (d : ℤ) (asset_sell : AssetT) (value_sell : ℚ) (asset_buy : AssetT)
    (value_buy : ℚ) (fb : Bool) (L1 : Ledger) (r : TradeResult)
    (h : apply_trade env L p d asset_sell value_sell asset_buy value_buy fb
           = .ok (L1, r)) :
    apply_trade env L1 p d asset_sell value_sell asset_buy value_buy fb
      = .ok (L1, r) := by
  rw [apply_trade_eq] at h ⊢
  cases hps : resolvePrice env asset_sell.id d fb with
  | error e => rw [hps] at h; simp at h
  | ok pp =>
    obtain ⟨ps, psd⟩ := pp
    rw [hps] at h
    cases hpb : resolvePrice env asset_buy.id d fb with
    | error e => rw [hpb] at h; simp at h
    | ok qq =>
      obtain ⟨pb, pbd⟩ := qq
      rw [hpb] at h
      simp only [Except.ok.injEq, Prod.mk.injEq] at h
      obtain ⟨hL, hr⟩ := h
      have hsell : (⟨p.id, asset_sell.id, d, -roundHalfUp (value_sell / ps) 8⟩ : AdjRow) ∈ L1 := by
        rw [← hL]
        exact subset_insertIfNew _ _ (mem_insertIfNew_self _ _)
      have hbuy : (⟨p.id, asset_buy.id, d, roundHalfUp (value_buy / pb) 8⟩ : AdjRow) ∈ L1 := by
        rw [← hL]
        exact mem_insertIfNew_self _ _
      simp only [insertIfNew_eq_of_mem _ _ hsell, insertIfNew_eq_of_mem _ _ hbuy, hr]

unseal Rat.add Rat.mul Rat.inv Rat.sub Rat.ofScientific in
/-- C3 witness: a concrete trade applied twice; the second call returns
the ledger of the first unchanged. -/
theorem C3_apply_trade_idempotent_witness :
    (apply_trade ⟨[⟨1, 10, 4⟩, ⟨2, 10, 5⟩]⟩ [] ⟨1, 100, 0, []⟩ 10 ⟨1, "A"⟩ 20 ⟨2, "B"⟩ 20 true
        = .ok ([⟨1, 1, 10, -5⟩, ⟨1, 2, 10, 4⟩],
               { units_sell := 5, units_buy := 4 })) ∧
      apply_trade ⟨[⟨1, 10, 4⟩, ⟨2, 10, 5⟩]⟩ [⟨1, 1, 10, -5⟩, ⟨1, 2, 10, 4⟩] ⟨1, 100, 0, []⟩
          10 ⟨1, "A"⟩ 20 ⟨2, "B"⟩ 20 true
        = .ok ([⟨1, 1, 10, -5⟩, ⟨1, 2, 10, 4⟩],
               { units_sell := 5, units_buy := 4 }) := by
  constructor
  · decide
  · exact C3_apply_trade_idempotent ⟨[⟨1, 10, 4⟩, ⟨2, 10, 5⟩]⟩ [] ⟨1, 100, 0, []⟩ 10
      ⟨1, "A"⟩ 20 ⟨2, "B"⟩ 20 true [⟨1, 1, 10, -5⟩, ⟨1, 2, 10, 4⟩]
      { units_sell := 5, units_buy := 4 } (by decide)

/-- C5: every successful apply_trade call returns units equal to the
notional value divided by the resolved price of each leg, rounded half-up
to 8 decimals, and the two ledger rows carry deltas minus units_sell and
plus units_buy, dated at the requested trade date (also when the resolved
price came from an earlier fallback date); no other row is added. -/
theorem C5_trade_units_and_rows (env : Env) (L : Ledger) (p : PortfolioT)
    (d : ℤ) (asset_sell : AssetT) (value_sell : ℚ) (asset_buy : AssetT)
    (value_buy : ℚ) (fb : Bool) (L1 : Ledger) (r : TradeResult)
    (h : apply_trade env L p d asset_sell value_sell asset_buy value_buy fb
           = .ok (L1, r)) :
    ∃ ps psd pb pbd,
      resolvePrice env asset_sell.id d fb = .ok (ps, psd) ∧
      resolvePrice env asset_buy.id d fb = .ok (pb, pbd) ∧
      r.units_sell = roundHalfUp (value_sell / ps) 8 ∧
      r.units_buy = roundHalfUp (value_buy / pb) 8 ∧
      (⟨p.id, asset_sell.id, d, -r.units_sell⟩ : AdjRow) ∈ L1 ∧
      (⟨p.id, asset_buy.id, d, r.units_buy⟩ : AdjRow) ∈ L1 ∧
      ∀ x ∈ L1, x ∈ L ∨ x = (⟨p.id, asset_sell.id, d, -r.units_sell⟩ : AdjRow) ∨
        x = (⟨p.id, asset_buy.id, d, r.units_buy⟩ : AdjRow) := by
  rw [apply_trade_eq] at h
  cases hps : resolvePrice env asset_sell.id d fb with
  | error e => rw [hps] at h; simp at h
  | ok pp =>
    obtain ⟨ps, psd⟩ := pp
    rw [hps] at h
    cases hpb : resolvePrice env asset_buy.id d fb with
    | error e => rw [hpb] at h; simp at h
    | ok qq =>
      obtain ⟨pb, pbd⟩ := qq
      rw [hpb] at h
      simp only [Except.ok.injEq, Prod.mk.injEq] at h
      obtain ⟨hL, hr⟩ := h
      subst hr
      refine ⟨ps, psd, pb, pbd, rfl, rfl, rfl, rfl, ?_, ?_, ?_⟩
      · rw [← hL]
        exact subset_insertIfNew _ _ (mem_insertIfNew_self _ _)
      · rw [← hL]
        exact mem_insertIfNew_self _ _
      · intro x hx
        rw [← hL] at hx
        rcases (mem_insertIfNew_iff _ _ _).mp hx with hx2 | hx2
        · rcases (mem_insertIfNew_iff _ _ _).mp hx2 with hx3 | hx3
          · exact Or.inl hx3
          · exact Or.inr (Or.inl hx3)
        · exact Or.inr (Or.inr hx2)

unseal Rat.add Rat.mul Rat.inv Rat.sub Rat.ofScientific in
/-- C5 witness: the scenario of the spec, selling 200,000,000 at price
120 and buying 200,000,000 at price 55 on the requested date. -/
theorem C5_trade_units_and_rows_witness :
    (apply_trade ⟨[⟨1, 780, 120⟩, ⟨2, 780, 55⟩]⟩ [] ⟨7, 1000000000, 0, []⟩ 780
        ⟨1, "EEUU"⟩ 200000000 ⟨2, "Europa"⟩ 200000000 true
      = .ok ([⟨7, 1, 780, -1666666.66666667⟩, ⟨7, 2, 780, 3636363.63636364⟩],
             { units_sell := 1666666.66666667, units_buy := 3636363.63636364 })) ∧
    (∃ ps psd pb pbd,
      resolvePrice ⟨[⟨1, 780, 120⟩, ⟨2, 780, 55⟩]⟩ 1 780 true = .ok (ps, psd) ∧
      resolvePrice ⟨[⟨1, 780, 120⟩, ⟨2, 780, 55⟩]⟩ 2 780 true = .ok (pb, pbd) ∧
      (1666666.66666667 : ℚ) = roundHalfUp (200000000 / ps) 8 ∧
      (3636363.63636364 : ℚ) = roundHalfUp (200000000 / pb) 8 ∧
      (⟨7, 1, 780, -(1666666.66666667 : ℚ)⟩ : AdjRow)
        ∈ [(⟨7, 1, 780, -1666666.66666667⟩ : AdjRow), ⟨7, 2, 780, 3636363.63636364⟩] ∧
      (⟨7, 2, 780, (3636363.63636364 : ℚ)⟩ : AdjRow)
        ∈ [(⟨7, 1, 780, -1666666.66666667⟩ : AdjRow), ⟨7, 2, 780, 3636363.63636364⟩] ∧
      ∀ x ∈ [(⟨7, 1, 780, -1666666.66666667⟩ : AdjRow), ⟨7, 2, 780, 3636363.63636364⟩],
        x ∈ ([] : Ledger) ∨ x = (⟨7, 1, 780, -(1666666.66666667 : ℚ)⟩ : AdjRow) ∨
          x = (⟨7, 2, 780, (3636363.63636364 : ℚ)⟩ : AdjRow)) := by
  constructor
  · decide
  · exact C5_trade_units_and_rows ⟨[⟨1, 780, 120⟩, ⟨2, 780, 55⟩]⟩ [] ⟨7, 1000000000, 0, []⟩
      780 ⟨1, "EEUU"⟩ 200000000 ⟨2, "Europa"⟩ 200000000 true
      [⟨7, 1, 780, -1666666.66666667⟩, ⟨7, 2, 780, 3636363.63636364⟩]
      { units_sell := 1666666.66666667, units_buy := 3636363.63636364 } (by decide)

/-- C7: the transactional apply_trade is atomic: whenever it raises, at
any injected fault point including between the sell-leg and the buy-leg
write, the observable ledger equals the ledger from before the call. -/
theorem C7_apply_trade_atomic_rollback (env : Env) (L : Ledger) (p : PortfolioT)
    (d : ℤ) (asset_sell : AssetT) (value_sell : ℚ) (asset_buy : AssetT)
    (value_buy : ℚ) (fb : Bool) (fault : FaultPoint → Bool) (e : VErr)
    (h : (apply_trade_atomic env L p d asset_sell value_sell asset_buy value_buy
            fb fault).2 = .error e) :
    (apply_trade_atomic env L p d asset_sell value_sell asset_buy value_buy
        fb fault).1 = L := by
  unfold apply_trade_atomic at h ⊢
  cases hc : applyTradeCore env L p d asset_sell value_sell asset_buy value_buy fb fault with
  | ok pr => rw [hc] at h; simp at h
  | error e2 => rfl

unseal Rat.add Rat.mul Rat.inv Rat.sub Rat.ofScientific in
/-- C7 witness: a fault injected between the two leg writes rolls the
ledger back to its pre-call contents. -/
theorem C7_apply_trade_atomic_rollback_witness :
    ((apply_trade_atomic ⟨[⟨1, 10, 4⟩, ⟨2, 10, 5⟩]⟩ [⟨9, 9, 9, 9⟩] ⟨1, 100, 0, []⟩ 10
        ⟨1, "A"⟩ 20 ⟨2, "B"⟩ 20 true
        (fun fp => decide (fp = FaultPoint.betweenLegs))).2 = .error .midTradeFault) ∧
    (apply_trade_atomic ⟨[⟨1, 10, 4⟩, ⟨2, 10, 5⟩]⟩ [⟨9, 9, 9, 9⟩] ⟨1, 100, 0, []⟩ 10
        ⟨1, "A"⟩ 20 ⟨2, "B"⟩ 20 true
        (fun fp => decide (fp = FaultPoint.betweenLegs))).1 = [⟨9, 9, 9, 9⟩] := by
  constructor
  · decide
  · exact C7_apply_trade_atomic_rollback ⟨[⟨1, 10, 4⟩, ⟨2, 10, 5⟩]⟩ [⟨9, 9, 9, 9⟩]
      ⟨1, 100, 0, []⟩ 10 ⟨1, "A"⟩ 20 ⟨2, "B"⟩ 20 true
      (fun fp => decide (fp = FaultPoint.betweenLegs)) .midTradeFault (by decide)

/-- Invariant of the running-best fold inside price_or_previous: a none
result means nothing was folded, and a some result is a candidate row (or
the seed) whose date bounds the seed and every candidate date. -/
theorem price_fold_invariant (cands : List PriceRow) (acc : Option (ℚ × ℤ)) :
    (cands.foldl
        (fun best r =>
          match best with
          | none => some (r.price, r.date)
          | some (bp, bd) => if bd < r.date then some (r.price, r.date) else some (bp, bd))
        acc = none → acc = none ∧ cands = []) ∧
    (∀ pr dm, cands.foldl
        (fun best r =>
          match best with
          | none => some (r.price, r.date)
          | some (bp, bd) => if bd < r.date then some (r.price, r.date) else some (bp, bd))
        acc = some (pr, dm) →
      (acc = some (pr, dm) ∨ ∃ r ∈ cands, r.price = pr ∧ r.date = dm) ∧
      (∀ q qd, acc = some (q, qd) → qd ≤ dm) ∧
      (∀ r ∈ cands, r.date ≤ dm)) := by
  induction cands generalizing acc with
  | nil =>
    constructor
    · intro hnone
      exact ⟨hnone, rfl⟩
    · intro pr dm hsome
      refine ⟨Or.inl hsome, ?_, by simp⟩
      intro q qd hq
      rw [hq] at hsome
      simp only [List.foldl_nil, Option.some.injEq, Prod.mk.injEq] at hsome
      omega
  | cons c cs ih =>
    constructor
    · intro hnone
      simp only [List.foldl_cons] at hnone
      obtain ⟨h1, _⟩ := (ih _).1 hnone
      cases acc with
      | none => simp at h1
      | some qq =>
        obtain ⟨q, qd⟩ := qq
        dsimp only at h1
        split_ifs at h1
    · intro pr dm hsome
      simp only [List.foldl_cons] at hsome
      obtain ⟨horig, hacc, hall⟩ := (ih _).2 pr dm hsome
      refine ⟨?_, ?_, ?_⟩
      · rcases horig with hacc2 | ⟨r, hr, hrp, hrd⟩
        · cases acc with
          | none =>
            dsimp only at hacc2
            simp only [Option.some.injEq, Prod.mk.injEq] at hacc2
            exact Or.inr ⟨c, List.mem_cons_self c cs, hacc2.1, hacc2.2⟩
          | some qq =>
            obtain ⟨q, qd⟩ := qq
            dsimp only at hacc2
            split_ifs at hacc2 with hlt
            · simp only [Option.some.injEq, Prod.mk.injEq] at hacc2
              exact Or.inr ⟨c, List.mem_cons_self c cs, hacc2.1, hacc2.2⟩
            · exact Or.inl hacc2
        · exact Or.inr ⟨r, List.mem_cons_of_mem c hr, hrp, hrd⟩
      · intro q qd hq
        subst hq
        by_cases hlt : qd < c.date
        · have hc := hacc c.price c.date (by dsimp only; rw [if_pos hlt])
          omega
        · exact hacc q qd (by dsimp only; rw [if_neg hlt])
      · intro r hr
        rcases List.mem_cons.mp hr with rfl | hr2
        · cases acc with
          | none => exact hacc r.price r.date rfl
          | some qq =>
            obtain ⟨q, qd⟩ := qq
            by_cases hlt : qd < r.date
            · exact hacc r.price r.date (by dsimp only; rw [if_pos hlt])
            · have := hacc q qd (by dsimp only; rw [if_neg hlt])
              omega
        · exact hall r hr2

/-- Characterization of a successful price_or_previous lookup: the date
returned is at most d, the pair comes from a Price row of the asset, and
no row of the asset at or before d is more recent. -/
theorem price_or_previous_ok (env : Env) (a : ℕ) (d : ℤ) (pr : ℚ) (dm : ℤ)
    (h : price_or_previous env a d = .ok (pr, dm)) :
    dm ≤ d ∧ (⟨a, dm, pr⟩ : PriceRow) ∈ env.prices ∧
      ∀ r ∈ env.prices, r.asset = a → r.date ≤ d → r.date ≤ dm := by
  unfold price_or_previous at h
  simp only [] at h
  set cands := env.prices.filter (fun r => decide (r.asset = a) && decide (r.date ≤ d)) with hcands
  cases hfold : cands.foldl
      (fun best r =>
        match best with
        | none => some (r.price, r.date)
        | some (bp, bd) => if bd < r.date then some (r.price, r.date) else some (bp, bd))
      none with
  | none => rw [hfold] at h; simp at h
  | some pp =>
    rw [hfold] at h
    simp only [Except.ok.injEq] at h
    subst h
    obtain ⟨horig, _, hall⟩ := (price_fold_invariant cands none).2 pr dm hfold
    rcases horig with hacc | ⟨r, hr, hrp, hrd⟩
    · simp at hacc
    · have hmem := List.mem_filter.mp (hcands ▸ hr)
      obtain ⟨hrin, hcond⟩ := hmem
      simp only [Bool.and_eq_true, decide_eq_true_eq] at hcond
      obtain ⟨hra, hrd2⟩ := hcond
      refine ⟨hrd ▸ hrd2, ?_, ?_⟩
      · have : r = (⟨a, dm, pr⟩ : PriceRow) := by
          cases r
          simp only [PriceRow.mk.injEq]
          exact ⟨hra, hrd, hrp⟩
        exact this ▸ hrin
      · intro r2 hr2 hr2a hr2d
        refine hall r2 ?_
        rw [hcands]
        exact List.mem_filter.mpr ⟨hr2, by simp [hr2a, hr2d]⟩

/-- With no Price row of the asset at or before d, price_or_previous
raises. -/
theorem price_or_previous_err (env : Env) (a : ℕ) (d : ℤ)
    (h : ∀ r ∈ env.prices, ¬(r.asset = a ∧ r.date ≤ d)) :
    price_or_previous env a d = .error (.noPriceAtOrBefore a d) := by
  unfold price_or_previous
  have hcands : env.prices.filter (fun r => decide (r.asset = a) && decide (r.date ≤ d)) = [] := by
    rw [List.filter_eq_nil_iff]
    intro r hr
    have := h r hr
    simp only [Bool.and_eq_true, decide_eq_true_eq]
    tauto
  rw [hcands]
  rfl

/-- With some Price row of the asset at or before d, price_or_previous
succeeds. -/
theorem price_or_previous_some (env : Env) (a : ℕ) (d : ℤ)
    (h : ∃ r ∈ env.prices, r.asset = a ∧ r.date ≤ d) :
    ∃ pr dm, price_or_previous env a d = .ok (pr, dm) := by
  unfold price_or_previous
  simp only []
  set cands := env.prices.filter (fun r => decide (r.asset = a) && decide (r.date ≤ d)) with hcands
  cases hfold : cands.foldl
      (fun best r =>
        match best with
        | none => some (r.price, r.date)
        | some (bp, bd) => if bd < r.date then some (r.price, r.date) else some (bp, bd))
      none with
  | none =>
    obtain ⟨_, hnil⟩ := (price_fold_invariant cands none).1 hfold
    obtain ⟨r, hr, hra, hrd⟩ := h
    have : r ∈ cands := by
      rw [hcands]
      exact List.mem_filter.mpr ⟨hr, by simp [hra, hrd]⟩
    rw [hnil] at this
    simp at this
  | some pp =>
    obtain ⟨pr, dm⟩ := pp
    exact ⟨pr, dm, rfl⟩

/-- C6: per trade leg, an exact-date price is used when present;
otherwise with fallback enabled the most recent price at or before the
date is used and the lack of any such price raises, while with fallback
disabled the exact-date miss raises; a failed resolution makes
apply_trade raise. -/
theorem C6_price_resolution_policy (env : Env) (asset : AssetT) (d : ℤ) :
    (∀ pr fb, priceExact env asset.id d = some pr →
       resolvePrice env asset.id d fb = .ok (pr, d)) ∧
    (priceExact env asset.id d = none →
       resolvePrice env asset.id d false = .error (.priceDoesNotExist asset.id d)) ∧
    (priceExact env asset.id d = none →
       (∃ r ∈ env.prices, r.asset = asset.id ∧ r.date ≤ d) →
       ∃ pr dm, resolvePrice env asset.id d true = .ok (pr, dm) ∧ dm ≤ d ∧
         (⟨asset.id, dm, pr⟩ : PriceRow) ∈ env.prices ∧
         ∀ r ∈ env.prices, r.asset = asset.id → r.date ≤ d → r.date ≤ dm) ∧
    (priceExact env asset.id d = none →
       (∀ r ∈ env.prices, ¬(r.asset = asset.id ∧ r.date ≤ d)) →
       resolvePrice env asset.id d true = .error (.noPriceAtOrBefore asset.id d)) ∧
    (∀ (L : Ledger) (p : PortfolioT) (vs : ℚ) (ab : AssetT) (vb : ℚ) (fb : Bool) (e : VErr),
       resolvePrice env asset.id d fb = .error e →
       apply_trade env L p d asset vs ab vb fb = .error e) ∧
    (∀ (L : Ledger) (p : PortfolioT) (a1 : AssetT) (vs vb : ℚ) (fb : Bool)
       (e : VErr) (pp : ℚ × ℤ),
       resolvePrice env a1.id d fb = .ok pp →
       resolvePrice env asset.id d fb = .error e →
       apply_trade env L p d a1 vs asset vb fb = .error e) := by
  refine ⟨?_, ?_, ?_, ?_, ?_, ?_⟩
  · intro pr fb h
    unfold resolvePrice
    rw [h]
  · intro h
    unfold resolvePrice
    rw [h]
    rfl
  · intro h hex
    obtain ⟨pr, dm, hok⟩ := price_or_previous_some env asset.id d hex
    have hspec := price_or_previous_ok env asset.id d pr dm hok
    refine ⟨pr, dm, ?_, hspec.1, hspec.2.1, hspec.2.2⟩
    unfold resolvePrice
    rw [h]
    exact hok
  · intro h hno
    unfold resolvePrice
    rw [h]
    exact price_or_previous_err env asset.id d hno
  · intro L p vs ab vb fb e herr
    rw [apply_trade_eq, herr]
  · intro L p a1 vs vb fb e pp hok herr
    obtain ⟨ps, psd⟩ := pp
    rw [apply_trade_eq, hok, herr]

unseal Rat.add Rat.mul Rat.inv Rat.sub Rat.ofScientific in
/-- C6 witness: an asset with prices only before the requested date: the
fallback resolution returns the latest of them, and disabling fallback
raises on the same input. -/
theorem C6_price_resolution_policy_witness :
    ((priceExact ⟨[⟨1, 5, 100⟩, ⟨1, 8, 110⟩, ⟨2, 9, 50⟩]⟩ 1 10 = none) ∧
      ∃ pr dm, resolvePrice ⟨[⟨1, 5, 100⟩, ⟨1, 8, 110⟩, ⟨2, 9, 50⟩]⟩ 1 10 true
          = .ok (pr, dm) ∧ dm ≤ 10 ∧
        (⟨1, dm, pr⟩ : PriceRow) ∈ [(⟨1, 5, 100⟩ : PriceRow), ⟨1, 8, 110⟩, ⟨2, 9, 50⟩] ∧
        ∀ r ∈ [(⟨1, 5, 100⟩ : PriceRow), ⟨1, 8, 110⟩, ⟨2, 9, 50⟩],
          r.asset = 1 → r.date ≤ 10 → r.date ≤ dm) ∧
    resolvePrice ⟨[⟨1, 5, 100⟩, ⟨1, 8, 110⟩, ⟨2, 9, 50⟩]⟩ 1 10 false
      = .error (.priceDoesNotExist 1 10) := by
  refine ⟨⟨by decide, ?_⟩, ?_⟩
  · exact (C6_price_resolution_policy ⟨[⟨1, 5, 100⟩, ⟨1, 8, 110⟩, ⟨2, 9, 50⟩]⟩
      ⟨1, "EEUU"⟩ 10).2.2.1 (by decide) ⟨⟨1, 8, 110⟩, by decide, by decide, by decide⟩
  · exact (C6_price_resolution_policy ⟨[⟨1, 5, 100⟩, ⟨1, 8, 110⟩, ⟨2, 9, 50⟩]⟩
      ⟨1, "EEUU"⟩ 10).2.1 (by decide)

/-- The loop of compute_initial_units_once raises at the first weighted
asset lacking a t0 price, naming that asset. -/
theorem initUnitsList_error_of_missing (env : Env) (t0 : ℤ) (V0 : ℚ) :
    ∀ l : List IWRow, (∃ iw ∈ l, priceExact env iw.asset.id t0 = none) →
      ∃ iw ∈ l, priceExact env iw.asset.id t0 = none ∧
        initUnitsList env t0 V0 l = .error (.missingInitialPrice t0 iw.asset.name) := by
  intro l
  induction l with
  | nil =>
    rintro ⟨iw, h, _⟩
    simp at h
  | cons iw rest ih =>
    rintro ⟨jw, hjw, hj⟩
    cases hpe : priceExact env iw.asset.id t0 with
    | none =>
      refine ⟨iw, List.mem_cons_self _ _, hpe, ?_⟩
      simp [initUnitsList, hpe]
    | some p0 =>
      have hjrest : jw ∈ rest := by
        rcases List.mem_cons.mp hjw with h2 | hr
        · rw [h2, hpe] at hj
          cases hj
        · exact hr
      obtain ⟨kw, hkw, hknone, herr⟩ := ih ⟨jw, hjrest, hj⟩
      refine ⟨kw, List.mem_cons_of_mem _ hkw, hknone, ?_⟩
      simp [initUnitsList, hpe, herr]

/-- The loop of compute_initial_units_once succeeds when every weighted
asset has a t0 price. -/
theorem initUnitsList_ok_of_present (env : Env) (t0 : ℤ) (V0 : ℚ) :
    ∀ l : List IWRow, (∀ iw ∈ l, (priceExact env iw.asset.id t0).isSome) →
      ∃ out, initUnitsList env t0 V0 l = .ok out := by
  intro l
  induction l with
  | nil => exact fun _ => ⟨([], []), rfl⟩
  | cons iw rest ih =>
    intro hall
    have h1 := hall iw (List.mem_cons_self _ _)
    cases hpe : priceExact env iw.asset.id t0 with
    | none => rw [hpe] at h1; simp at h1
    | some p0 =>
      obtain ⟨out, hout⟩ := ih (fun jw hjw => hall jw (List.mem_cons_of_mem _ hjw))
      obtain ⟨bs, ns⟩ := out
      exact ⟨((iw.asset.id, roundHalfUp (iw.weight * V0 / p0) 8) :: bs,
              (iw.asset.id, iw.asset.name) :: ns),
             by simp [initUnitsList, hpe, hout]⟩

/-- On a portfolio with initial weights, compute_initial_units_once is
the loop over the weight rows. -/
theorem compute_initial_units_once_nonempty (env : Env) (p : PortfolioT)
    (hne : p.iweights ≠ []) :
    compute_initial_units_once env p
      = initUnitsList env p.initial_date p.initial_value p.iweights := by
  have h' : p.iweights.isEmpty = false := by
    cases hpl : p.iweights with
    | nil => exact absurd hpl hne
    | cons a l => rfl
  unfold compute_initial_units_once
  rw [h']
  rfl

/-- C8: computing initial units errors on a portfolio without
InitialWeight rows; errors naming an offending asset when some weighted
asset has no price at exactly the initial date; and succeeds when weights
exist and every weighted asset has a t0 price. -/
theorem C8_initial_units_errors (env : Env) (p : PortfolioT) :
    (p.iweights = [] → compute_initial_units_once env p = .error .noInitialWeights) ∧
    ((∃ iw ∈ p.iweights, priceExact env iw.asset.id p.initial_date = none) →
       ∃ iw ∈ p.iweights, priceExact env iw.asset.id p.initial_date = none ∧
         compute_initial_units_once env p
           = .error (.missingInitialPrice p.initial_date iw.asset.name)) ∧
    (p.iweights ≠ [] →
       (∀ iw ∈ p.iweights, (priceExact env iw.asset.id p.initial_date).isSome) →
       ∃ out, compute_initial_units_once env p = .ok out) := by
  refine ⟨?_, ?_, ?_⟩
  · intro h
    unfold compute_initial_units_once
    rw [h]
    rfl
  · intro hex
    have hne : p.iweights ≠ [] := by
      rintro hnil
      rw [hnil] at hex
      obtain ⟨iw, h, _⟩ := hex
      simp at h
    obtain ⟨iw, hiw, hnone, herr⟩ :=
      initUnitsList_error_of_missing env p.initial_date p.initial_value p.iweights hex
    refine ⟨iw, hiw, hnone, ?_⟩
    rw [compute_initial_units_once_nonempty env p hne]
    exact herr
  · intro hne hall
    obtain ⟨out, hout⟩ :=
      initUnitsList_ok_of_present env p.initial_date p.initial_value p.iweights hall
    exact ⟨out, by rw [compute_initial_units_once_nonempty env p hne]; exact hout⟩

unseal Rat.add Rat.mul Rat.inv Rat.sub Rat.ofScientific in
/-- C8 witness: the three branches at concrete portfolios: no weights,
one weighted asset with no t0 price, and a fully priced portfolio. -/
theorem C8_initial_units_errors_witness :
    (compute_initial_units_once ⟨[⟨1, 0, 5⟩]⟩ ⟨1, 100, 0, []⟩
        = .error .noInitialWeights) ∧
    (∃ iw ∈ [(⟨⟨5, "X"⟩, 1⟩ : IWRow)],
       priceExact ⟨[⟨1, 0, 5⟩]⟩ iw.asset.id 0 = none ∧
       compute_initial_units_once ⟨[⟨1, 0, 5⟩]⟩ ⟨1, 100, 0, [⟨⟨5, "X"⟩, 1⟩]⟩
         = .error (.missingInitialPrice 0 iw.asset.name)) ∧
    (∃ out, compute_initial_units_once ⟨[⟨1, 0, 5⟩]⟩ ⟨1, 100, 0, [⟨⟨1, "A"⟩, 1⟩]⟩
        = .ok out) := by
  refine ⟨?_, ?_, ?_⟩
  · exact (C8_initial_units_errors ⟨[⟨1, 0, 5⟩]⟩ ⟨1, 100, 0, []⟩).1 rfl
  · exact (C8_initial_units_errors ⟨[⟨1, 0, 5⟩]⟩ ⟨1, 100, 0, [⟨⟨5, "X"⟩, 1⟩]⟩).2.1
      ⟨⟨⟨5, "X"⟩, 1⟩, by decide, by decide⟩
  · exact (C8_initial_units_errors ⟨[⟨1, 0, 5⟩]⟩ ⟨1, 100, 0, [⟨⟨1, "A"⟩, 1⟩]⟩).2.2
      (by decide) (by decide)

/-! Lemmas about the insertion sort used to model the order_by clauses. -/

theorem mem_insertAsc (x y : ℤ) (l : List ℤ) :
    y ∈ insertAsc x l ↔ y = x ∨ y ∈ l := by
  induction l with
  | nil => simp [insertAsc]
  | cons z zs ih =>
    unfold insertAsc
    by_cases h : x ≤ z
    · rw [if_pos h]
      simp
    · rw [if_neg h]
      simp only [List.mem_cons, ih]
      tauto

theorem pairwise_insertAsc (x : ℤ) (l : List ℤ) (h : l.Pairwise (· ≤ ·)) :
    (insertAsc x l).Pairwise (· ≤ ·) := by
  induction l with
  | nil => simp [insertAsc]
  | cons z zs ih =>
    unfold insertAsc
    rcases List.pairwise_cons.mp h with ⟨hz, hzs⟩
    by_cases hle : x ≤ z
    · rw [if_pos hle]
      refine List.pairwise_cons.mpr ⟨?_, h⟩
      intro b hb
      rcases List.mem_cons.mp hb with rfl | hb2
      · exact hle
      · exact le_trans hle (hz b hb2)
    · rw [if_neg hle]
      refine List.pairwise_cons.mpr ⟨?_, ih hzs⟩
      intro b hb
      rcases (mem_insertAsc x b zs).mp hb with rfl | hb2
      · omega
      · exact hz b hb2

theorem nodup_insertAsc (x : ℤ) (l : List ℤ) (hx : x ∉ l) (h : l.Nodup) :
    (insertAsc x l).Nodup := by
  induction l with
  | nil => simp [insertAsc]
  | cons z zs ih =>
    unfold insertAsc
    rcases List.nodup_cons.mp h with ⟨hz, hzs⟩
    by_cases hle : x ≤ z
    · rw [if_pos hle]
      exact List.nodup_cons.mpr ⟨by simp_all, h⟩
    · rw [if_neg hle]
      refine List.nodup_cons.mpr ⟨?_, ih (fun hc => hx (List.mem_cons_of_mem _ hc)) hzs⟩
      intro hc
      rcases (mem_insertAsc x z zs).mp hc with h2 | h2
      · omega
      · exact hz h2

theorem mem_sortAsc (l : List ℤ) (y : ℤ) : y ∈ sortAsc l ↔ y ∈ l := by
  induction l with
  | nil => simp [sortAsc]
  | cons z zs ih =>
    unfold sortAsc at ih ⊢
    simp only [List.foldr_cons, mem_insertAsc, ih, List.mem_cons]

theorem pairwise_sortAsc (l : List ℤ) : (sortAsc l).Pairwise (· ≤ ·) := by
  induction l with
  | nil => exact List.Pairwise.nil
  | cons z zs ih =>
    unfold sortAsc at ih ⊢
    exact pairwise_insertAsc z _ ih

theorem nodup_sortAsc (l : List ℤ) (h : l.Nodup) : (sortAsc l).Nodup := by
  induction l with
  | nil => simp [sortAsc]
  | cons z zs ih =>
    rcases List.nodup_cons.mp h with ⟨hz, hzs⟩
    unfold sortAsc at ih ⊢
    exact nodup_insertAsc z _ (fun hc => hz ((mem_sortAsc zs z).mp hc)) (ih hzs)

/-! On a date-sorted series the takeWhile and dropWhile of the sweep are
filters. -/

theorem takeWhile_eq_filter_of_sorted (d : ℤ) :
    ∀ series : List (ℤ × ℚ), series.Pairwise (fun x y => x.1 ≤ y.1) →
      series.takeWhile (fun e => decide (e.1 ≤ d))
        = series.filter (fun e => decide (e.1 ≤ d)) := by
  intro series
  induction series with
  | nil => intro _; rfl
  | cons x xs ih =>
    intro h
    rcases List.pairwise_cons.mp h with ⟨hx, hxs⟩
    by_cases hle : x.1 ≤ d
    · simp [List.takeWhile_cons, List.filter_cons, hle, ih hxs]
    · have hfil : xs.filter (fun e => decide (e.1 ≤ d)) = [] := by
        rw [List.filter_eq_nil_iff]
        intro e he
        have := hx e he
        simp only [decide_eq_true_eq]
        omega
      simp [List.takeWhile_cons, List.filter_cons, hle, hfil]

theorem dropWhile_eq_filter_of_sorted (d : ℤ) :
    ∀ series : List (ℤ × ℚ), series.Pairwise (fun x y => x.1 ≤ y.1) →
      series.dropWhile (fun e => decide (e.1 ≤ d))
        = series.filter (fun e => decide (d < e.1)) := by
  intro series
  induction series with
  | nil => intro _; rfl
  | cons x xs ih =>
    intro h
    rcases List.pairwise_cons.mp h with ⟨hx, hxs⟩
    by_cases hle : x.1 ≤ d
    · have h2 : ¬d < x.1 := by omega
      simp [List.dropWhile_cons, List.filter_cons, hle, h2, ih hxs]
    · have h2 : d < x.1 := by omega
      have hfil : xs.filter (fun e => decide (d < e.1)) = xs := by
        rw [List.filter_eq_self]
        intro e he
        have := hx e he
        simp only [decide_eq_true_eq]
        omega
      simp [List.dropWhile_cons, List.filter_cons, hle, h2, hfil]

/-- Splitting a date-filtered sum at an intermediate date. -/
theorem sum_split_le (d0 d : ℤ) (h : d0 ≤ d) :
    ∀ series : List (ℤ × ℚ),
      ((series.filter (fun e => decide (e.1 ≤ d0))).map (fun e => e.2)).sum +
      ((series.filter (fun e => decide (e.1 ≤ d) && decide (d0 < e.1))).map
          (fun e => e.2)).sum
        = ((series.filter (fun e => decide (e.1 ≤ d))).map (fun e => e.2)).sum := by
  intro series
  induction series with
  | nil => simp
  | cons x xs ih =>
    by_cases h1 : x.1 ≤ d0
    · have h2 : x.1 ≤ d := by omega
      have h3 : ¬d0 < x.1 := by omega
      simp [List.filter_cons, h1, h2, h3]
      linarith [ih]
    · by_cases h2 : x.1 ≤ d
      · have h3 : d0 < x.1 := by omega
        simp [List.filter_cons, h1, h2, h3]
        linarith [ih]
      · have h3 : d0 < x.1 := by omega
        simp [List.filter_cons, h1, h2, h3]
        linarith [ih]

/-- The forward sweep assigns to every day of a sorted day list the seed
plus the sum of the series entries dated at or before that day. -/
theorem sweepDays_lookup (d : ℤ) :
    ∀ (days : List ℤ) (series : List (ℤ × ℚ)) (cum0 : ℚ),
      d ∈ days → days.Pairwise (· ≤ ·) →
      series.Pairwise (fun x y => x.1 ≤ y.1) →
      (sweepDays series cum0 days).find? (fun e => decide (e.1 = d))
        = some (d, cum0 +
            ((series.filter (fun e => decide (e.1 ≤ d))).map (fun e => e.2)).sum) := by
  intro days
  induction days with
  | nil =>
    intro series cum0 hd
    simp at hd
  | cons d0 ds ih =>
    intro series cum0 hd hdays hser
    rcases List.pairwise_cons.mp hdays with ⟨hd0, hds⟩
    simp only [sweepDays]
    rw [takeWhile_eq_filter_of_sorted d0 series hser,
        dropWhile_eq_filter_of_sorted d0 series hser]
    by_cases hdd : d0 = d
    · subst hdd
      rw [List.find?_cons_of_pos _ (by simp)]
    · have hdin : d ∈ ds := by
        rcases List.mem_cons.mp hd with h | h
        · omega
        · exact h
      rw [List.find?_cons_of_neg _ (by simp [hdd])]
      rw [ih (series.filter (fun e => decide (d0 < e.1)))
            (cum0 + ((series.filter (fun e => decide (e.1 ≤ d0))).map (fun e => e.2)).sum)
            hdin hds (hser.filter _)]
      rw [List.filter_filter]
      have hsplit := sum_split_le d0 d (hd0 d hdin) series
      simp only [Option.some.injEq, Prod.mk.injEq]
      refine ⟨by trivial, by linarith [hsplit]⟩

/-- Sum of a filter by a disjunction of disjoint predicates splits. -/
theorem sum_filter_disjoint (p q : AdjRow → Bool)
    (hdisj : ∀ r, ¬(p r = true ∧ q r = true)) :
    ∀ rows : List AdjRow,
      ((rows.filter (fun r => p r || q r)).map (fun r => r.delta_units)).sum
        = ((rows.filter p).map (fun r => r.delta_units)).sum +
          ((rows.filter q).map (fun r => r.delta_units)).sum := by
  intro rows
  induction rows with
  | nil => simp
  | cons r rs ih =>
    cases h1 : p r with
    | true =>
      have h2 : q r = false := by
        cases h3 : q r with
        | true => exact absurd ⟨h1, h3⟩ (hdisj r)
        | false => rfl
      simp [List.filter_cons, h1, h2]
      linarith [ih]
    | false =>
      cases h3 : q r with
      | true =>
        simp [List.filter_cons, h1, h3]
        linarith [ih]
      | false =>
        simp [List.filter_cons, h1, h3]
        linarith [ih]

/-- Summing the per-date group totals over a duplicate-free date list
equals summing the rows whose date lies in the list. -/
theorem sum_group (rows : List AdjRow) :
    ∀ D : List ℤ, D.Nodup →
      (D.map (fun dt =>
        ((rows.filter (fun r => decide (r.effective_date = dt))).map
          (fun r => r.delta_units)).sum)).sum
        = ((rows.filter (fun r => decide (r.effective_date ∈ D))).map
            (fun r => r.delta_units)).sum := by
  intro D
  induction D with
  | nil =>
    intro _
    simp
  | cons dt Dr ih =>
    intro hnd
    rcases List.nodup_cons.mp hnd with ⟨hdt, hnd'⟩
    simp only [List.map_cons, List.sum_cons]
    rw [ih hnd']
    have hdisj : ∀ r : AdjRow, ¬((fun r : AdjRow => decide (r.effective_date = dt)) r = true ∧
        (fun r : AdjRow => decide (r.effective_date ∈ Dr)) r = true) := by
      intro r hc
      simp only [decide_eq_true_eq] at hc
      exact hdt (hc.1 ▸ hc.2)
    have hsplit := sum_filter_disjoint (fun r => decide (r.effective_date = dt))
      (fun r => decide (r.effective_date ∈ Dr)) hdisj rows
    have hcong : rows.filter (fun r => decide (r.effective_date ∈ dt :: Dr))
        = rows.filter (fun r =>
            decide (r.effective_date = dt) || decide (r.effective_date ∈ Dr)) := by
      apply List.filter_congr
      intro r _
      by_cases hr : r.effective_date = dt
      · simp [hr]
      · by_cases hr2 : r.effective_date ∈ Dr <;> simp [hr, hr2]
    rw [hcong, hsplit]

/-- Filtering a keyed map by a date bound on the key commutes with the
map. -/
theorem filter_map_mk_le (g : ℤ → ℚ) (d : ℤ) :
    ∀ D : List ℤ,
      ((D.map (fun dt => (dt, g dt))).filter (fun e => decide (e.1 ≤ d)))
        = (D.filter (fun dt => decide (dt ≤ d))).map (fun dt => (dt, g dt)) := by
  intro D
  induction D with
  | nil => rfl
  | cons dt Dr ih =>
    by_cases h : dt ≤ d
    · simp [List.filter_cons, h, ih]
    · simp [List.filter_cons, h, ih]

/-- Projecting the values out of a keyed map. -/
theorem map_snd_map_mk (g : ℤ → ℚ) :
    ∀ D : List ℤ, ((D.map (fun dt => (dt, g dt))).map (fun e => e.2)) = D.map g := by
  intro D
  induction D with
  | nil => rfl
  | cons dt Dr ih => simp [ih]

/-- The per-asset adjustment series is sorted by date. -/
theorem adjSeries_pairwise (rows : List AdjRow) (a : ℕ) :
    (adjSeries rows a).Pairwise (fun x y => x.1 ≤ y.1) := by
  unfold adjSeries
  rw [List.pairwise_map]
  exact pairwise_sortAsc _

/-- Summing the series entries dated at or before d recovers the exact
sum of the asset's adjustment rows dated at or before d. -/
theorem adjSeries_filter_sum (rows : List AdjRow) (a : ℕ) (d : ℤ) :
    (((adjSeries rows a).filter (fun e => decide (e.1 ≤ d))).map (fun e => e.2)).sum
      = (((rows.filter (fun r => decide (r.asset = a))).filter
           (fun r => decide (r.effective_date ≤ d))).map (fun r => r.delta_units)).sum := by
  unfold adjSeries
  simp only []
  rw [filter_map_mk_le, map_snd_map_mk]
  set rowsA := rows.filter (fun r => decide (r.asset = a)) with hra
  set D := sortAsc ((rowsA.map (fun r => r.effective_date)).dedup) with hD
  have hnd : (D.filter (fun dt => decide (dt ≤ d))).Nodup :=
    List.Nodup.filter _ (nodup_sortAsc _ (List.nodup_dedup _))
  rw [sum_group rowsA _ hnd]
  have hfc : rowsA.filter
      (fun r => decide (r.effective_date ∈ D.filter (fun dt => decide (dt ≤ d))))
        = rowsA.filter (fun r => decide (r.effective_date ≤ d)) := by
    apply List.filter_congr
    intro r hr
    have hrd : r.effective_date ∈ D := by
      rw [hD, mem_sortAsc, List.mem_dedup]
      exact List.mem_map_of_mem _ hr
    by_cases hle : r.effective_date ≤ d
    · have hm : r.effective_date ∈ D.filter (fun dt => decide (dt ≤ d)) :=
        List.mem_filter.mpr ⟨hrd, decide_eq_true hle⟩
      simp [hm, hle]
    · have hm : r.effective_date ∉ D.filter (fun dt => decide (dt ≤ d)) := by
        rw [List.mem_filter]
        rintro ⟨_, hc⟩
        rw [decide_eq_true_eq] at hc
        exact hle hc
      simp [hm, hle]
  rw [hfc]

/-- Looking up one key in an asset-tagged day block reduces to looking
up the day in the underlying sweep output. -/
theorem find?_map_key (a : ℕ) (d : ℤ) :
    ∀ l : List (ℤ × ℚ),
      ((l.map (fun dc => ((a, dc.1), dc.2))).find? (fun e => decide (e.1 = (a, d))))
        = (l.find? (fun e => decide (e.1 = d))).map (fun dc => ((a, dc.1), dc.2)) := by
  intro l
  induction l with
  | nil => rfl
  | cons x xs ih =>
    simp only [List.map_cons]
    by_cases h : x.1 = d
    · rw [List.find?_cons_of_pos _ (by simp [h]), List.find?_cons_of_pos _ (by simp [h])]
      rfl
    · rw [List.find?_cons_of_neg _ (by simp [h]), List.find?_cons_of_neg _ (by simp [h])]
      exact ih

/-- Looking up an asset-day key across the concatenated per-asset sweep
blocks of adjustments_cumsum yields that asset's cumulative sum for the
day. -/
theorem find?_flatMap_blocks (rows : List AdjRow) (days : List ℤ) (a : ℕ) (d : ℤ)
    (hd : d ∈ days) (hdays : days.Pairwise (· ≤ ·)) :
    ∀ assets : List ℕ, a ∈ assets →
      ((assets.flatMap (fun a2 =>
          (sweepDays (adjSeries rows a2) 0 days).map (fun dc => ((a2, dc.1), dc.2)))).find?
        (fun e => decide (e.1 = (a, d))))
        = some ((a, d),
            0 + (((adjSeries rows a).filter (fun e => decide (e.1 ≤ d))).map
              (fun e => e.2)).sum) := by
  intro assets
  induction assets with
  | nil =>
    intro h
    simp at h
  | cons a2 rest ih =>
    intro hmem
    rw [List.flatMap_cons, List.find?_append]
    by_cases heq : a2 = a
    · subst heq
      rw [find?_map_key,
        sweepDays_lookup d days (adjSeries rows a2) 0 hd hdays (adjSeries_pairwise rows a2)]
      rfl
    · have hnone : ((sweepDays (adjSeries rows a2) 0 days).map
          (fun dc => ((a2, dc.1), dc.2))).find? (fun e => decide (e.1 = (a, d))) = none := by
        rw [List.find?_eq_none]
        intro x hx
        rw [List.mem_map] at hx
        obtain ⟨dc, _, rfl⟩ := hx
        simp only [decide_eq_true_eq, Prod.mk.injEq]
        rintro ⟨h1, _⟩
        exact heq h1
      rw [hnone, Option.none_or]
      refine ih ?_
      rcases List.mem_cons.mp hmem with h | h
      · exact absurd h.symm heq
      · exact h

/-- C10: for every asset and every day of the requested range, the
cumulative adjustment that portfolio_time_series reads from
adjustments_cumsum (defaulting to 0 when the key is absent, so 0 for
assets with no adjustments) equals the exact sum of that asset's
adjustment deltas of the portfolio with effective_date at or before the
day — rows dated strictly before the range start included. -/
theorem C10_adjustments_cumsum_exact (ledger : Ledger) (p : PortfolioT)
    (s e : ℤ) (a : ℕ) (d : ℤ) (hd : d ∈ daterange s e) :
    lookupD (adjustments_cumsum ledger p s e) (a, d) 0
      = ((ledger.filter (fun r => decide (r.portfolio = p.id) &&
            decide (r.asset = a) && decide (r.effective_date ≤ d))).map
          (fun r => r.delta_units)).sum := by
  have hde : d ≤ e := ((daterange_mem s e d).mp hd).2
  unfold adjustments_cumsum lookupD
  simp only []
  by_cases ha : a ∈ ((adjRowsFor ledger p.id e).map (fun r => r.asset)).dedup
  · rw [find?_flatMap_blocks (adjRowsFor ledger p.id e) (daterange s e) a d hd
        (by unfold daterange; exact daterangeAux_pairwise_le _ _) _ ha]
    simp only [zero_add]
    rw [adjSeries_filter_sum]
    unfold adjRowsFor
    rw [List.filter_filter, List.filter_filter]
    refine congrArg List.sum (congrArg _ (List.filter_congr ?_))
    intro r _
    by_cases h1 : r.portfolio = p.id <;> by_cases h2 : r.asset = a <;>
      by_cases h3 : r.effective_date ≤ d
    all_goals
      first
      | (have h4 : r.effective_date ≤ e := by omega
         simp [h1, h2, h3, h4])
      | simp [h1, h2, h3]
  · have hnone : (((((adjRowsFor ledger p.id e).map (fun r => r.asset)).dedup).flatMap
        (fun a2 => (sweepDays (adjSeries (adjRowsFor ledger p.id e) a2) 0
            (daterange s e)).map (fun dc => ((a2, dc.1), dc.2)))).find?
          (fun x => decide (x.1 = (a, d)))) = none := by
      rw [List.find?_eq_none]
      intro x hx
      rw [List.mem_flatMap] at hx
      obtain ⟨a2, ha2, hxblock⟩ := hx
      rw [List.mem_map] at hxblock
      obtain ⟨dc, _, rfl⟩ := hxblock
      simp only [decide_eq_true_eq, Prod.mk.injEq]
      rintro ⟨h1, _⟩
      exact ha (h1 ▸ ha2)
    rw [hnone]
    have hfe : ledger.filter (fun r => decide (r.portfolio = p.id) &&
        decide (r.asset = a) && decide (r.effective_date ≤ d)) = [] := by
      rw [List.filter_eq_nil_iff]
      intro r hr hc
      simp only [Bool.and_eq_true, decide_eq_true_eq] at hc
      obtain ⟨⟨hp, haa⟩, hdd⟩ := hc
      apply ha
      rw [List.mem_dedup, List.mem_map]
      refine ⟨r, ?_, haa⟩
      unfold adjRowsFor
      rw [List.mem_filter]
      refine ⟨hr, ?_⟩
      have h4 : r.effective_date ≤ e := by omega
      simp [hp, h4]
    rw [hfe]
    rfl

unseal Rat.add Rat.mul Rat.inv Rat.sub Rat.ofScientific in
/-- C10 witness: an adjustment dated before the range start still counts
in every day of the range. -/
theorem C10_adjustments_cumsum_exact_witness :
    (12 : ℤ) ∈ daterange 10 14 ∧
    lookupD (adjustments_cumsum [⟨1, 1, 5, 10⟩, ⟨1, 1, 12, 2⟩] ⟨1, 100, 0, []⟩ 10 14)
        (1, 12) 0 = 12 ∧
    lookupD (adjustments_cumsum [⟨1, 1, 5, 10⟩, ⟨1, 1, 12, 2⟩] ⟨1, 100, 0, []⟩ 10 14)
        (1, 12) 0
      = ((([⟨1, 1, 5, 10⟩, ⟨1, 1, 12, 2⟩] : Ledger).filter (fun r =>
            decide (r.portfolio = 1) && decide (r.asset = 1) &&
            decide (r.effective_date ≤ 12))).map (fun r => r.delta_units)).sum := by
  refine ⟨by decide, by decide, ?_⟩
  exact C10_adjustments_cumsum_exact [⟨1, 1, 5, 10⟩, ⟨1, 1, 12, 2⟩] ⟨1, 100, 0, []⟩
    10 14 1 12 (by decide)

unseal Rat.add Rat.mul Rat.inv Rat.sub Rat.ofScientific in
/-- C1 counterexample: a one-asset portfolio whose day value is exactly
0.125. The code quantizes the day total with the default context
rounding (half-even), producing 0.12, while half-up rounding of the same
sum gives 0.13: the day total is not quantized half-up. -/
theorem C1_counterexample :
    portfolio_time_series ⟨[⟨1, 0, 1⟩]⟩ [] ⟨1, 1/8, 0, [⟨⟨1, "A"⟩, 1⟩]⟩ 0 0 true
      = .ok { dates := [0], Vt := [12/100],
              weights := [[("A", 104166667/100000000)]] } ∧
    roundHalfUp (1/8 : ℚ) 2 = 13/100 ∧
    (12/100 : ℚ) ≠ 13/100 := by
  decide

/-- C1 amended: for every day of a successful time series, the day total
is the per-asset value sum quantized to 2 decimals with HALF-EVEN
rounding (the decimal module default, since the source passes no rounding
mode there), and every weight entry of that day is an included asset's
value divided by the day total, quantized to 8 decimals with HALF-EVEN
rounding. -/
theorem C1_amended_half_even (env : Env) (ledger : Ledger) (p : PortfolioT)
    (s e : ℤ) (ut : Bool) (res : TSResult) (bu : List (ℕ × ℚ))
    (an : List (ℕ × String))
    (hc : compute_initial_units_once env p = .ok (bu, an))
    (hok : portfolio_time_series env ledger p s e ut = .ok res)
    (i : ℕ) (hiv : i < res.Vt.length) (hiw : i < res.weights.length) :
    res.Vt.get ⟨i, hiv⟩
      = roundHalfEven (((dayXi env (bu.map (fun b => b.1)) bu
          (if ut then adjustments_cumsum ledger p s e else []) (s + i)).map
            (fun x => x.2)).sum) 2 ∧
    ∀ nm w, (nm, w) ∈ res.weights.get ⟨i, hiw⟩ →
      ∃ aid xval, (aid, xval) ∈ dayXi env (bu.map (fun b => b.1)) bu
          (if ut then adjustments_cumsum ledger p s e else []) (s + i) ∧
        nm = lookupD an aid "" ∧
        w = roundHalfEven (xval / res.Vt.get ⟨i, hiv⟩) 8 := by
  have h2 := (portfolio_time_series_ok_eq env ledger p s e ut bu an hc).symm.trans hok
  simp only [Except.ok.injEq] at h2
  subst h2
  dsimp only at hiv hiw ⊢
  rw [List.length_map] at hiv hiw
  have hget : (daterange s e).get ⟨i, hiv⟩ = s + i := daterange_get s e i hiv
  constructor
  · rw [List.get_map, hget]
    rfl
  · intro nm w hw
    rw [List.get_map, hget] at hw ⊢
    unfold timeSeriesDay at hw ⊢
    simp only [] at hw ⊢
    by_cases hcond : 0 < roundHalfEven
        (((dayXi env (bu.map (fun b => b.1)) bu
            (if ut then adjustments_cumsum ledger p s e else []) (s + i)).map
          (fun x => x.2)).sum) 2 ∧
        dayXi env (bu.map (fun b => b.1)) bu
          (if ut then adjustments_cumsum ledger p s e else []) (s + i) ≠ []
    · rw [if_pos hcond] at hw
      rw [List.mem_map] at hw
      obtain ⟨x, hx, hxe⟩ := hw
      simp only [Prod.mk.injEq] at hxe
      exact ⟨x.1, x.2, hx, hxe.1.symm, hxe.2.symm⟩
    · rw [if_neg hcond] at hw
      simp at hw

unseal Rat.add Rat.mul Rat.inv Rat.sub Rat.ofScientific in
/-- C1 amended witness: on the 0.125 example the recorded day total is
the half-even quantization of the raw day sum. -/
theorem C1_amended_half_even_witness :
    ([12/100] : List ℚ).get ⟨0, by decide⟩
      = roundHalfEven (((dayXi ⟨[⟨1, 0, 1⟩]⟩ [1] [(1, 1/8)]
          (adjustments_cumsum [] ⟨1, 1/8, 0, [⟨⟨1, "A"⟩, 1⟩]⟩ 0 0) 0).map
            (fun x => x.2)).sum) 2 :=
  (C1_amended_half_even ⟨[⟨1, 0, 1⟩]⟩ [] ⟨1, 1/8, 0, [⟨⟨1, "A"⟩, 1⟩]⟩ 0 0 true
    { dates := [0], Vt := [12/100], weights := [[("A", 104166667/100000000)]] }
    [(1, 1/8)] [(1, "A")] (by decide) (by decide) 0 (by decide) (by decide)).1

unseal Rat.add Rat.mul Rat.inv Rat.sub Rat.ofScientific in
/-- C2 counterexample: a portfolio with a single weight of 1 (weights sum
to 1) and a valid t0 price of 10^9. The 8-decimal unit rounding floors
the base units to 0, so the value at t0 is 0.00, not the initial value 1:
the discrepancy is not absorbed by the final 2-decimal quantization. -/
theorem C2_counterexample :
    (([⟨⟨1, "A"⟩, 1⟩] : List IWRow).map (fun iw => iw.weight)).sum = 1 ∧
    priceExact ⟨[⟨1, 0, 1000000000⟩]⟩ 1 0 = some 1000000000 ∧
    portfolio_value_on_date ⟨[⟨1, 0, 1000000000⟩]⟩ [] ⟨1, 1, 0, [⟨⟨1, "A"⟩, 1⟩]⟩ 0
      = .ok 0 ∧
    (0 : ℚ) ≠ 1 := by
  decide

/-! Arithmetic facts about half-up rounding. -/

theorem floorDiv_err (y : ℚ) (n : ℕ) :
    |((⌊y * 10 ^ n + 1/2⌋ : ℤ) : ℚ) / 10 ^ n - y| ≤ 1 / (2 * 10 ^ n) := by
  have hs : (0 : ℚ) < 10 ^ n := by positivity
  have h1 : ((⌊y * 10 ^ n + 1/2⌋ : ℤ) : ℚ) ≤ y * 10 ^ n + 1/2 := Int.floor_le _
  have h2 : y * 10 ^ n + 1/2 - 1 < ((⌊y * 10 ^ n + 1/2⌋ : ℤ) : ℚ) :=
    Int.sub_one_lt_floor _
  have hrw : ((⌊y * 10 ^ n + 1/2⌋ : ℤ) : ℚ) / 10 ^ n - y
      = (((⌊y * 10 ^ n + 1/2⌋ : ℤ) : ℚ) - y * 10 ^ n) / 10 ^ n := by
    rw [sub_div, mul_div_cancel_right₀ _ (ne_of_gt hs)]
  rw [hrw, abs_div, abs_of_pos hs]
  have habs : |((⌊y * 10 ^ n + 1/2⌋ : ℤ) : ℚ) - y * 10 ^ n| ≤ 1/2 :=
    abs_le.mpr ⟨by linarith, by linarith⟩
  calc |((⌊y * 10 ^ n + 1/2⌋ : ℤ) : ℚ) - y * 10 ^ n| / 10 ^ n
      ≤ (1/2) / 10 ^ n := div_le_div_of_nonneg_right habs hs.le
    _ = 1 / (2 * 10 ^ n) := by rw [div_div]

theorem roundHalfUp_err (x : ℚ) (n : ℕ) :
    |roundHalfUp x n - x| ≤ 1 / (2 * 10 ^ n) := by
  unfold roundHalfUp
  simp only []
  split_ifs with hx
  · exact floorDiv_err x n
  · have := floorDiv_err (-x) n
    have hrw : -(((⌊-x * 10 ^ n + 1/2⌋ : ℤ) : ℚ) / 10 ^ n) - x
        = -(((⌊-x * 10 ^ n + 1/2⌋ : ℤ) : ℚ) / 10 ^ n - -x) := by ring
    rw [hrw, abs_neg]
    exact this

theorem floorDiv_fix (y : ℚ) (n : ℕ) (m : ℤ)
    (h : |y - (m : ℚ) / 10 ^ n| < 1 / (2 * 10 ^ n)) :
    ⌊y * 10 ^ n + 1/2⌋ = m := by
  have hs : (0 : ℚ) < 10 ^ n := by positivity
  rw [abs_sub_lt_iff] at h
  obtain ⟨h1, h2⟩ := h
  have e1 : ((m : ℚ) / 10 ^ n) * 10 ^ n = m := div_mul_cancel₀ _ (ne_of_gt hs)
  have e2 : (1 / (2 * (10 : ℚ) ^ n)) * 10 ^ n = 1/2 := by
    field_simp
    ring
  have k1 := mul_lt_mul_of_pos_right h2 hs
  rw [sub_mul, e1, e2] at k1
  have k2 := mul_lt_mul_of_pos_right h1 hs
  rw [sub_mul, e1, e2] at k2
  rw [Int.floor_eq_iff]
  constructor
  · linarith
  · linarith

theorem roundHalfUp_eq_of_near (x : ℚ) (n : ℕ) (m : ℤ)
    (h : |x - (m : ℚ) / 10 ^ n| < 1 / (2 * 10 ^ n)) :
    roundHalfUp x n = (m : ℚ) / 10 ^ n := by
  unfold roundHalfUp
  simp only []
  split_ifs with hx
  · rw [floorDiv_fix x n m h]
  · have h' : |(-x) - ((-m : ℤ) : ℚ) / 10 ^ n| < 1 / (2 * 10 ^ n) := by
      have hrw : (-x) - ((-m : ℤ) : ℚ) / 10 ^ n = -(x - (m : ℚ) / 10 ^ n) := by
        push_cast
        ring
      rw [hrw, abs_neg]
      exact h
    rw [floorDiv_fix (-x) n (-m) h']
    push_cast
    ring

theorem roundHalfUp_rep (x : ℚ) (n : ℕ) :
    ∃ m : ℤ, roundHalfUp x n = (m : ℚ) / 10 ^ n := by
  unfold roundHalfUp
  simp only []
  split_ifs with hx
  · exact ⟨⌊x * 10 ^ n + 1/2⌋, rfl⟩
  · refine ⟨-⌊-x * 10 ^ n + 1/2⌋, ?_⟩
    push_cast
    ring

theorem roundHalfUp_fix (m : ℤ) (n : ℕ) :
    roundHalfUp ((m : ℚ) / 10 ^ n) n = (m : ℚ) / 10 ^ n := by
  refine roundHalfUp_eq_of_near _ _ m ?_
  have hs : (0 : ℚ) < 10 ^ n := by positivity
  simp only [sub_self, abs_zero]
  positivity

/-- Association lookup on a cons cell. -/
theorem lookupD_cons {α β : Type} [DecidableEq α] (k k2 : α) (v : β)
    (l : List (α × β)) (d : β) :
    lookupD ((k, v) :: l) k2 d = if k = k2 then v else lookupD l k2 d := by
  unfold lookupD
  by_cases h : k = k2
  · rw [List.find?_cons_of_pos _ (by simp [h]), if_pos h]
  · rw [List.find?_cons_of_neg _ (by simp [h]), if_neg h]

/-- With a price for every weighted asset and duplicate-free asset ids,
the services initial-units loop succeeds and maps each asset to its
rounded base units. -/
theorem initUnitsService_lookup (env : Env) (t0 : ℤ) (V0 : ℚ) :
    ∀ l : List IWRow, (l.map (fun j => j.asset.id)).Nodup →
      (∀ jw ∈ l, ∃ pr, priceExact env jw.asset.id t0 = some pr) →
      ∃ out, initUnitsServiceList env t0 V0 l = .ok out ∧
        ∀ jw ∈ l, ∀ pr, priceExact env jw.asset.id t0 = some pr →
          lookupD out jw.asset.id 0 = roundHalfUp (jw.weight * V0 / pr) 8 := by
  intro l
  induction l with
  | nil =>
    intro _ _
    exact ⟨[], rfl, by simp⟩
  | cons iw rest ih =>
    intro hnd hall
    obtain ⟨pr0, hpr0⟩ := hall iw (List.mem_cons_self _ _)
    rw [List.map_cons, List.nodup_cons] at hnd
    obtain ⟨hnotin, hnd2⟩ := hnd
    obtain ⟨out2, hout2, hlook2⟩ :=
      ih hnd2 (fun jw hjw => hall jw (List.mem_cons_of_mem _ hjw))
    refine ⟨(iw.asset.id, roundHalfUp (iw.weight * V0 / pr0) 8) :: out2, ?_, ?_⟩
    · simp [initUnitsServiceList, hpr0, hout2]
    · intro jw hjw pr hpr
      rcases List.mem_cons.mp hjw with h | hjw2
      · subst h
        rw [lookupD_cons, if_pos rfl]
        have hpe : pr0 = pr := Option.some.inj (hpr0.symm.trans hpr)
        rw [hpe]
      · have hne : iw.asset.id ≠ jw.asset.id := by
          intro h
          exact hnotin (h ▸ List.mem_map_of_mem (fun j => j.asset.id) hjw2)
        rw [lookupD_cons, if_neg hne]
        exact hlook2 jw hjw2 pr hpr

/-- On the initial date, with no adjustments at or before it, the units
of a weighted asset are exactly its rounded base units. -/
theorem get_units_at_t0 (env : Env) (ledger : Ledger) (p : PortfolioT)
    (iw : IWRow) (hmem : iw ∈ p.iweights)
    (hnodup : (p.iweights.map (fun j => j.asset.id)).Nodup)
    (hall : ∀ jw ∈ p.iweights, ∃ pr, priceExact env jw.asset.id p.initial_date = some pr)
    (hled : ∀ r ∈ ledger, r.portfolio = p.id → ¬(r.effective_date ≤ p.initial_date))
    (pr : ℚ) (hpr : priceExact env iw.asset.id p.initial_date = some pr) :
    get_units_on_date env ledger p iw.asset p.initial_date
      = .ok (roundHalfUp (iw.weight * p.initial_value / pr) 8) := by
  obtain ⟨out, hout, hlook⟩ :=
    initUnitsService_lookup env p.initial_date p.initial_value p.iweights hnodup hall
  unfold get_units_on_date compute_initial_units_for_portfolio
  rw [hout]
  simp only []
  have hdelta : ledger.filter (fun r => decide (r.portfolio = p.id) &&
      decide (r.asset = iw.asset.id) && decide (r.effective_date ≤ p.initial_date)) = [] := by
    rw [List.filter_eq_nil_iff]
    intro r hr
    by_cases h1 : r.portfolio = p.id
    · have := hled r hr h1
      simp [h1, this]
    · simp [h1]
  rw [hdelta, hlook iw hmem pr hpr]
  obtain ⟨m, hm⟩ := roundHalfUp_rep (iw.weight * p.initial_value / pr) 8
  rw [hm]
  simp only [List.map_nil, List.sum_nil, add_zero]
  rw [roundHalfUp_fix m 8]

/-- Summing weights times the initial value. -/
theorem sum_map_mul_value (V : ℚ) :
    ∀ l : List IWRow,
      (l.map (fun jw => jw.weight * V)).sum = (l.map (fun jw => jw.weight)).sum * V := by
  intro l
  induction l with
  | nil => simp
  | cons x xs ih =>
    simp [ih]
    ring

/-- The value accumulation at t0 stays within half an 8-decimal ulp per
unit of summed price of the exact weighted value. -/
theorem valueSum_near (env : Env) (ledger : Ledger) (p : PortfolioT)
    (hnodup : (p.iweights.map (fun j => j.asset.id)).Nodup)
    (hled : ∀ r ∈ ledger, r.portfolio = p.id → ¬(r.effective_date ≤ p.initial_date))
    (hall : ∀ jw ∈ p.iweights,
      ∃ pr, priceExact env jw.asset.id p.initial_date = some pr ∧ 0 < pr) :
    ∀ l : List IWRow, (∀ jw ∈ l, jw ∈ p.iweights) →
      ∃ T, valueSumOnDate env ledger p p.initial_date l = .ok T ∧
        |T - (l.map (fun jw => jw.weight * p.initial_value)).sum|
          ≤ ((l.map (fun jw =>
              (priceExact env jw.asset.id p.initial_date).getD 0)).sum) * (1 / (2 * 10 ^ 8)) := by
  intro l
  induction l with
  | nil =>
    intro _
    exact ⟨0, rfl, by simp⟩
  | cons iw rest ih =>
    intro hsub
    have hmem : iw ∈ p.iweights := hsub iw (List.mem_cons_self _ _)
    obtain ⟨pr, hpr, hprpos⟩ := hall iw hmem
    have hu := get_units_at_t0 env ledger p iw hmem hnodup
      (fun jw hjw => (hall jw hjw).imp (fun x hx => hx.1)) hled pr hpr
    obtain ⟨T2, hT2, hb2⟩ := ih (fun jw hjw => hsub jw (List.mem_cons_of_mem _ hjw))
    refine ⟨roundHalfUp (iw.weight * p.initial_value / pr) 8 * pr + T2, ?_, ?_⟩
    · unfold valueSumOnDate
      rw [hu, hpr, hT2]
    · have herr := roundHalfUp_err (iw.weight * p.initial_value / pr) 8
      have hstep : |roundHalfUp (iw.weight * p.initial_value / pr) 8 * pr
          - iw.weight * p.initial_value| ≤ pr * (1 / (2 * 10 ^ 8)) := by
        have hrw : roundHalfUp (iw.weight * p.initial_value / pr) 8 * pr
            - iw.weight * p.initial_value
            = (roundHalfUp (iw.weight * p.initial_value / pr) 8
                - iw.weight * p.initial_value / pr) * pr := by
          rw [sub_mul, div_mul_cancel₀ _ (ne_of_gt hprpos)]
        rw [hrw, abs_mul, abs_of_pos hprpos]
        calc |roundHalfUp (iw.weight * p.initial_value / pr) 8
            - iw.weight * p.initial_value / pr| * pr
            ≤ (1 / (2 * 10 ^ 8)) * pr := mul_le_mul_of_nonneg_right herr hprpos.le
          _ = pr * (1 / (2 * 10 ^ 8)) := mul_comm _ _
      have htri := abs_add
        (roundHalfUp (iw.weight * p.initial_value / pr) 8 * pr - iw.weight * p.initial_value)
        (T2 - (rest.map (fun jw => jw.weight * p.initial_value)).sum)
      have hre : roundHalfUp (iw.weight * p.initial_value / pr) 8 * pr
          - iw.weight * p.initial_value
          + (T2 - (rest.map (fun jw => jw.weight * p.initial_value)).sum)
          = roundHalfUp (iw.weight * p.initial_value / pr) 8 * pr + T2
            - ((iw :: rest).map (fun jw => jw.weight * p.initial_value)).sum := by
        simp only [List.map_cons, List.sum_cons]
        ring
      rw [hre] at htri
      have hhead : ((iw :: rest).map (fun jw =>
          (priceExact env jw.asset.id p.initial_date).getD 0)).sum
          = pr + (rest.map (fun jw =>
              (priceExact env jw.asset.id p.initial_date).getD 0)).sum := by
        simp only [List.map_cons, List.sum_cons, hpr, Option.getD_some]
      rw [hhead, add_mul]
      linarith [htri, hstep, hb2]

/-- C2 amended: with weights summing to 1, a positive t0 price for every
weighted asset, no duplicate weighted assets, no adjustments at or before
t0, an initial value that is a multiple of 0.01, and a t0 price total
below 10^6 (so that the per-asset 8-decimal unit rounding error, at most
half an ulp times each price, stays below half a cent in total),
portfolio_value_on_date at t0 returns exactly the initial value. Without
the price-total bound the claim fails (see the counterexample). -/
theorem C2_amended_value_at_t0 (env : Env) (ledger : Ledger) (p : PortfolioT)
    (hw : (p.iweights.map (fun iw => iw.weight)).sum = 1)
    (hall : ∀ jw ∈ p.iweights,
      ∃ pr, priceExact env jw.asset.id p.initial_date = some pr ∧ 0 < pr)
    (hnodup : (p.iweights.map (fun j => j.asset.id)).Nodup)
    (hled : ∀ r ∈ ledger, r.portfolio = p.id → ¬(r.effective_date ≤ p.initial_date))
    (m : ℤ) (hV : p.initial_value = (m : ℚ) / 10 ^ 2)
    (hbound : ((p.iweights.map (fun jw =>
        (priceExact env jw.asset.id p.initial_date).getD 0)).sum) < 10 ^ 6) :
    portfolio_value_on_date env ledger p p.initial_date = .ok p.initial_value := by
  obtain ⟨T, hT, hTb⟩ := valueSum_near env ledger p hnodup hled hall p.iweights
    (fun _ h => h)
  unfold portfolio_value_on_date
  rw [hT]
  show Except.ok (roundHalfUp T 2) = Except.ok p.initial_value
  have hsum : (p.iweights.map (fun jw => jw.weight * p.initial_value)).sum
      = p.initial_value := by
    rw [sum_map_mul_value, hw, one_mul]
  rw [hsum] at hTb
  have hk : (0 : ℚ) < 1 / (2 * 10 ^ 8) := by norm_num
  have hTnear : |T - p.initial_value| < 1 / (2 * 10 ^ 2) := by
    have h1 : ((p.iweights.map (fun jw =>
        (priceExact env jw.asset.id p.initial_date).getD 0)).sum) * (1 / (2 * 10 ^ 8))
        < 10 ^ 6 * (1 / (2 * 10 ^ 8)) := mul_lt_mul_of_pos_right hbound hk
    have h2 : (10 : ℚ) ^ 6 * (1 / (2 * 10 ^ 8)) = 1 / (2 * 10 ^ 2) := by norm_num
    linarith [hTb]
  have hfin : roundHalfUp T 2 = (m : ℚ) / 10 ^ 2 := by
    refine roundHalfUp_eq_of_near T 2 m ?_
    rw [← hV]
    exact hTnear
  rw [hfin, ← hV]

unseal Rat.add Rat.mul Rat.inv Rat.sub Rat.ofScientific in
/-- C2 amended witness: the spec scenario with V0 = 10^9 at t0, weights
0.6 and 0.4 and prices 100 and 50: the value at t0 is exactly 10^9. -/
theorem C2_amended_value_at_t0_witness :
    portfolio_value_on_date ⟨[⟨1, 0, 100⟩, ⟨2, 0, 50⟩]⟩ []
        ⟨1, 1000000000, 0, [⟨⟨1, "EEUU"⟩, 6/10⟩, ⟨⟨2, "Europa"⟩, 4/10⟩]⟩ 0
      = .ok 1000000000 := by
  have h := C2_amended_value_at_t0 ⟨[⟨1, 0, 100⟩, ⟨2, 0, 50⟩]⟩ []
    ⟨1, 1000000000, 0, [⟨⟨1, "EEUU"⟩, 6/10⟩, ⟨⟨2, "Europa"⟩, 4/10⟩]⟩
    (by decide)
    (by
      intro jw hjw
      rcases List.mem_cons.mp hjw with h1 | h1
      · exact ⟨100, by rw [h1]; decide, by decide⟩
      · rcases List.mem_cons.mp h1 with h2 | h2
        · exact ⟨50, by rw [h2]; decide, by decide⟩
        · simp at h2)
    (by decide)
    (by intro r hr; simp at hr)
    100000000000 (by decide)
    (by decide)
  exact h
